import Mathlib

/-!
Shallow embedding of `src/ccmpp.h` (cohort-component population projection).

The C++ source is generic over a numeric scalar `Type`; we instantiate it with
`ℚ` so that every computation is exact and decidable.  Eigen column vectors and
arrays become functions `ℕ → ℚ` together with the explicit sizes that the code
reads off the Eigen objects (`sx.rows()`, `fx.rows()`, `sx.cols()`, ...).
Two-dimensional arrays become `ℕ → ℕ → ℚ` with the row index first and the
time-step (column) index second.  The sparse Leslie matrix is embedded as the
list of `(row, col, value)` triples in the order the code `insert`s them; the
matrix coefficient at `(r, c)` is the sum of the matching triples (under the
shape preconditions each coefficient is inserted at most once, so this agrees
with Eigen's semantics).
-/

namespace Ccmpp

/-- Division with an explicit division-by-zero branch, for the fallible
rendering of the code (the C++ scalar division would be a division by zero
exactly when the embedding takes the `none` branch). -/
def safeDiv (a b : ℚ) : Option ℚ := if b = 0 then none else some (a / b)

/-- `Type fert_k = sx[0] * 0.5 * age_span / (1.0 + srb);` (ccmpp.h line 16). -/
def fert_k (sx : ℕ → ℚ) (srb age_span : ℚ) : ℚ :=
  sx 0 * (1/2) * age_span / (1 + srb)

/-- The division of ccmpp.h line 16 rendered with the explicit
division-by-zero branch. -/
def fert_kChecked (sx : ℕ → ℚ) (srb age_span : ℚ) : Option ℚ :=
  safeDiv (sx 0 * (1/2) * age_span) (1 + srb)

/-- The array `fert_leslie` of ccmpp.h lines 19-23 as a function of the
already-computed scalar `fk` (the local variable `fert_k`): it has
`fx.rows() + 1` entries, entry `i` receiving `fx[i] * sx[fx_idx + i]` for
`i < fxd` from the first block assignment, plus `fx[i-1]` for `1 ≤ i` from
the second block assignment, the whole array finally scaled by `fert_k`. -/
def fert_leslieWith (sx fx : ℕ → ℚ) (n_fx : ℕ) (fk : ℚ) (fx_idx i : ℕ) : ℚ :=
  ((if i < n_fx then fx i * sx (fx_idx + i) else 0) +
    (if 1 ≤ i then fx (i - 1) else 0)) * fk

/-- The array `fert_leslie` of ccmpp.h lines 19-23. -/
def fert_leslie (sx fx : ℕ → ℚ) (n_fx : ℕ) (srb age_span : ℚ) (fx_idx i : ℕ) : ℚ :=
  fert_leslieWith sx fx n_fx (fert_k sx srb age_span) fx_idx i

/-- The `(row, col, value)` triples inserted into the sparse Leslie matrix, in
program order (ccmpp.h lines 29-36): the fertility top row
`leslie.insert(0, fx_idx + i - 1) = fert_leslie[i]` for `i = 0..fxd`, the
sub-diagonal `leslie.insert(i, i-1) = sx[i]` for `i = 1..dim-1`, and the
terminal entry `leslie.insert(dim-1, dim-1) = sx[dim]`, where
`dim = sx.rows() - 1 = n_ages`.  Parameterized by the already-computed
scalar `fk`. -/
def leslieTriplesWith (sx fx : ℕ → ℚ) (n_ages n_fx : ℕ) (fk : ℚ)
    (fx_idx : ℕ) : List (ℕ × ℕ × ℚ) :=
  ((List.range (n_fx + 1)).map
      (fun i => (0, fx_idx + i - 1, fert_leslieWith sx fx n_fx fk fx_idx i)))
    ++ ((List.range (n_ages - 1)).map (fun i => (i + 1, i, sx (i + 1))))
    ++ [(n_ages - 1, n_ages - 1, sx n_ages)]

/-- `make_leslie_matrix` viewed as a coefficient function, parameterized by
the already-computed scalar `fk`: the value at `(r, c)` is the sum of the
inserted triples at that position. -/
def make_leslie_matrixWith (sx fx : ℕ → ℚ) (n_ages n_fx : ℕ) (fk : ℚ)
    (fx_idx : ℕ) (r c : ℕ) : ℚ :=
  (((leslieTriplesWith sx fx n_ages n_fx fk fx_idx).filter
      (fun t => t.1 == r && t.2.1 == c)).map (fun t => t.2.2)).sum

/-- `make_leslie_matrix` (ccmpp.h lines 8-40) viewed as a coefficient
function: first compute `fert_k` (line 16), then build the matrix. -/
def make_leslie_matrix (sx fx : ℕ → ℚ) (n_ages n_fx : ℕ) (srb age_span : ℚ)
    (fx_idx : ℕ) (r c : ℕ) : ℚ :=
  make_leslie_matrixWith sx fx n_ages n_fx (fert_k sx srb age_span) fx_idx r c

/-- `make_leslie_matrix` with its single division (line 16) rendered through
`safeDiv`: the rest of the function performs no division. -/
def make_leslie_matrixChecked (sx fx : ℕ → ℚ) (n_ages n_fx : ℕ)
    (srb age_span : ℚ) (fx_idx : ℕ) : Option (ℕ → ℕ → ℚ) :=
  (fert_kChecked sx srb age_span).bind
    (fun fk => some (make_leslie_matrixWith sx fx n_ages n_fx fk fx_idx))

/-- Sparse matrix times dense vector, rows of the result indexed by `r`. -/
def matVec (A : ℕ → ℕ → ℚ) (n : ℕ) (v : ℕ → ℚ) (r : ℕ) : ℚ :=
  ∑ c ∈ Finset.range n, A r c * v c

/-- One step of the matrix-form path (body of the loop in ccmpp.h lines
56-61): `migrants = population.col(step) ⊙ gx.col(step)` and
`population.col(step+1) = leslie * (population.col(step) + 0.5*migrants)
+ 0.5*migrants`. -/
def leslieStep (sx fx gx : ℕ → ℚ) (srb age_span : ℚ) (fx_idx n_ages n_fx : ℕ)
    (pop : ℕ → ℚ) (a : ℕ) : ℚ :=
  matVec (make_leslie_matrix sx fx n_ages n_fx srb age_span fx_idx) n_ages
      (fun c => pop c + (1/2) * (pop c * gx c)) a
    + (1/2) * (pop a * gx a)

/-- `ccmpp_leslie` (ccmpp.h lines 42-64): the population matrix, column `k`
being the population after `k` steps, column `0` the base population.  The
sizes `n_ages`, `n_fx` are those the code reads from `sx.rows() - 1` and
`fx.rows()`. -/
def ccmpp_leslie (basepop : ℕ → ℚ) (sx fx gx : ℕ → ℕ → ℚ) (srb : ℕ → ℚ)
    (age_span : ℚ) (fx_idx n_ages n_fx : ℕ) : ℕ → ℕ → ℚ
  | 0 => basepop
  | k + 1 =>
    leslieStep (fun a => sx a k) (fun a => fx a k) (fun a => gx a k) (srb k)
      age_span fx_idx n_ages n_fx
      (ccmpp_leslie basepop sx fx gx srb age_span fx_idx n_ages n_fx k)

/-- The state of the direct-recurrence path: the `PopulationProjection<Type>`
class of ccmpp.h lines 66-122.  The dimension fields and the parameter tables
`sx`, `fx`, `gx`, `srb` are `const` members; `population`, `deaths`, `births`,
`infants`, `migrations` are the mutable output tables. -/
structure PopulationProjection where
  n_ages : ℕ
  n_steps : ℕ
  n_fx : ℕ
  fx_idx : ℕ
  age_span : ℚ
  sx : ℕ → ℕ → ℚ
  fx : ℕ → ℕ → ℚ
  gx : ℕ → ℕ → ℚ
  srb : ℕ → ℚ
  population : ℕ → ℕ → ℚ
  deaths : ℕ → ℕ → ℚ
  births : ℕ → ℕ → ℚ
  infants : ℕ → ℚ
  migrations : ℕ → ℕ → ℚ

namespace Step

/-! Intermediate values of `step_projection` (ccmpp.h lines 124-160), for one
step, as functions of the step's parameter columns `sx fx gx : ℕ → ℚ`,
`srb : ℚ` and the previous population column `pop : ℕ → ℚ`.  The working
array `population_t` (the in-place view of population column `step+1`) is
split into its successive states `working1` (after the first migration
half-step), `working2` (after the aging loop and the open-age add),
`working3` (after the age-0 assignment) and `working4` (after the second
migration half-step). -/

/-- `migrations_t = population_t * gx_t` (line 142), with `population_t` still
holding a copy of population column `step` (line 140). -/
def migrants (gx pop : ℕ → ℚ) (a : ℕ) : ℚ := pop a * gx a

/-- `population_t += 0.5 * migrations_t` (line 143). -/
def working1 (gx pop : ℕ → ℚ) (a : ℕ) : ℚ :=
  pop a + (1/2) * migrants gx pop a

/-- `deaths_t.segment(1, n_ages) = population_t * (1.0 - sx_t.segment(1, n_ages))`
(line 145): for `a = 1..n_ages`, `deaths_t(a) = working1(a-1) * (1 - sx_t(a))`. -/
def deathsUpper (sx gx pop : ℕ → ℚ) (a : ℕ) : ℚ :=
  working1 gx pop (a - 1) * (1 - sx a)

/-- First partial births estimate,
`births_t = 0.5 * age_span * fx_t * population_t.segment(fx_idx, n_fx)` (line 146). -/
def births1 (age_span : ℚ) (fx gx pop : ℕ → ℚ) (fx_idx i : ℕ) : ℚ :=
  (1/2) * age_span * fx i * working1 gx pop (fx_idx + i)

/-- `Type open_age_survivors = population_t(n_ages-1) - deaths_t(n_ages)` (line 148). -/
def openAgeSurvivors (n_ages : ℕ) (sx gx pop : ℕ → ℚ) : ℚ :=
  working1 gx pop (n_ages - 1) - deathsUpper sx gx pop n_ages

/-- The working population after the aging loop (lines 149-151), which sets
`population_t(age) = population_t(age-1) - deaths_t(age)` for
`age = n_ages-1` down to `1`, and the open-age accumulation
`population_t(n_ages-1) += open_age_survivors` (line 152). -/
def working2 (n_ages : ℕ) (sx gx pop : ℕ → ℚ) (a : ℕ) : ℚ :=
  (if 1 ≤ a ∧ a ≤ n_ages - 1 then
      working1 gx pop (a - 1) - deathsUpper sx gx pop a
    else working1 gx pop a) +
    (if a = n_ages - 1 then openAgeSurvivors n_ages sx gx pop else 0)

/-- Second partial births estimate, added into `births_t` (line 154), read off
the aged working population. -/
def births2 (n_ages : ℕ) (age_span : ℚ) (sx fx gx pop : ℕ → ℚ) (fx_idx i : ℕ) : ℚ :=
  (1/2) * age_span * fx i * working2 n_ages sx gx pop (fx_idx + i)

/-- The births column recorded for the step: the sum of the two partial
estimates (lines 146 and 154). -/
def birthsCol (n_ages : ℕ) (age_span : ℚ) (sx fx gx pop : ℕ → ℚ) (fx_idx i : ℕ) : ℚ :=
  births1 age_span fx gx pop fx_idx i + births2 n_ages age_span sx fx gx pop fx_idx i

/-- `infants_t = births_t.sum() / (1.0 + srb(step))` (line 155). -/
def infantsVal (n_ages n_fx : ℕ) (age_span : ℚ) (sx fx gx pop : ℕ → ℚ)
    (fx_idx : ℕ) (srb : ℚ) : ℚ :=
  (∑ i ∈ Finset.range n_fx, birthsCol n_ages age_span sx fx gx pop fx_idx i) /
    (1 + srb)

/-- `deaths_t(0) = infants_t(0) * (1.0 - sx_t(0))` (line 156). -/
def deaths0 (n_ages n_fx : ℕ) (age_span : ℚ) (sx fx gx pop : ℕ → ℚ)
    (fx_idx : ℕ) (srb : ℚ) : ℚ :=
  infantsVal n_ages n_fx age_span sx fx gx pop fx_idx srb * (1 - sx 0)

/-- The working population after `population_t(0) = infants_t(0) - deaths_t(0)`
(line 157). -/
def working3 (n_ages n_fx : ℕ) (age_span : ℚ) (sx fx gx pop : ℕ → ℚ)
    (fx_idx : ℕ) (srb : ℚ) (a : ℕ) : ℚ :=
  if a = 0 then
    infantsVal n_ages n_fx age_span sx fx gx pop fx_idx srb -
      deaths0 n_ages n_fx age_span sx fx gx pop fx_idx srb
  else working2 n_ages sx gx pop a

/-- The final population column for the step, after the second migration
half-step `population_t += 0.5 * migrations_t` (line 159). -/
def working4 (n_ages n_fx : ℕ) (age_span : ℚ) (sx fx gx pop : ℕ → ℚ)
    (fx_idx : ℕ) (srb : ℚ) (a : ℕ) : ℚ :=
  working3 n_ages n_fx age_span sx fx gx pop fx_idx srb a +
    (1/2) * migrants gx pop a

end Step

/-- `PopulationProjection<Type>::step_projection(int step)` (ccmpp.h lines
124-160) as a pure state transformer.  The column views write population
column `step+1` (rows `0..n_ages-1`), and column `step` of `deaths` (rows
`0..n_ages`), `births` (rows `0..n_fx-1`), `migrations` (rows `0..n_ages-1`)
and `infants`; everything else is carried over unchanged. -/
def step_projection (s : PopulationProjection) (step : ℕ) : PopulationProjection :=
  let sx_t : ℕ → ℚ := fun a => s.sx a step
  let fx_t : ℕ → ℚ := fun a => s.fx a step
  let gx_t : ℕ → ℚ := fun a => s.gx a step
  let pop : ℕ → ℚ := fun a => s.population a step
  { s with
    population := fun a j =>
      if j = step + 1 ∧ a < s.n_ages then
        Step.working4 s.n_ages s.n_fx s.age_span sx_t fx_t gx_t pop s.fx_idx
          (s.srb step) a
      else s.population a j
    deaths := fun a j =>
      if j = step ∧ a < s.n_ages + 1 then
        if a = 0 then
          Step.deaths0 s.n_ages s.n_fx s.age_span sx_t fx_t gx_t pop s.fx_idx
            (s.srb step)
        else Step.deathsUpper sx_t gx_t pop a
      else s.deaths a j
    births := fun i j =>
      if j = step ∧ i < s.n_fx then
        Step.birthsCol s.n_ages s.age_span sx_t fx_t gx_t pop s.fx_idx i
      else s.births i j
    infants := fun j =>
      if j = step then
        Step.infantsVal s.n_ages s.n_fx s.age_span sx_t fx_t gx_t pop s.fx_idx
          (s.srb step)
      else s.infants j
    migrations := fun a j =>
      if j = step ∧ a < s.n_ages then Step.migrants gx_t pop a
      else s.migrations a j }

/-- `step_projection` with its single division (the computation of
`infants_t` on ccmpp.h line 155) rendered through `safeDiv`; the remaining
lines of the function perform no division.  The lines after the division
(156, 157: `deaths_t(0) = infants_t(0) * (1.0 - sx_t(0))` and
`population_t(0) = infants_t(0) - deaths_t(0)`) are written directly in terms
of the scalar produced by the division. -/
def step_projectionChecked (s : PopulationProjection) (step : ℕ) :
    Option PopulationProjection :=
  let sx_t : ℕ → ℚ := fun a => s.sx a step
  let fx_t : ℕ → ℚ := fun a => s.fx a step
  let gx_t : ℕ → ℚ := fun a => s.gx a step
  let pop : ℕ → ℚ := fun a => s.population a step
  (safeDiv
      (∑ i ∈ Finset.range s.n_fx,
        Step.birthsCol s.n_ages s.age_span sx_t fx_t gx_t pop s.fx_idx i)
      (1 + s.srb step)).bind (fun inf =>
    some
      { s with
        population := fun a j =>
          if j = step + 1 ∧ a < s.n_ages then
            (if a = 0 then inf - inf * (1 - sx_t 0)
              else Step.working2 s.n_ages sx_t gx_t pop a) +
              (1/2) * Step.migrants gx_t pop a
          else s.population a j
        deaths := fun a j =>
          if j = step ∧ a < s.n_ages + 1 then
            if a = 0 then inf * (1 - sx_t 0)
            else Step.deathsUpper sx_t gx_t pop a
          else s.deaths a j
        births := fun i j =>
          if j = step ∧ i < s.n_fx then
            Step.birthsCol s.n_ages s.age_span sx_t fx_t gx_t pop s.fx_idx i
          else s.births i j
        infants := fun j => if j = step then inf else s.infants j
        migrations := fun a j =>
          if j = step ∧ a < s.n_ages then Step.migrants gx_t pop a
          else s.migrations a j })

/-- The `PopulationProjection` constructor (ccmpp.h lines 92-118): stores the
dimensions and parameter tables and sets `population.col(0) = basepop`.  The
output tables are allocated uninitialised by Eigen; the embedding fills the
not-yet-written cells with `0`. -/
def PopulationProjection.init (n_ages n_steps n_fx fx_idx : ℕ) (age_span : ℚ)
    (basepop : ℕ → ℚ) (sx fx gx : ℕ → ℕ → ℚ) (srb : ℕ → ℚ) :
    PopulationProjection :=
  { n_ages := n_ages
    n_steps := n_steps
    n_fx := n_fx
    fx_idx := fx_idx
    age_span := age_span
    sx := sx
    fx := fx
    gx := gx
    srb := srb
    population := fun a j => if j = 0 then basepop a else 0
    deaths := fun _ _ => 0
    births := fun _ _ => 0
    infants := fun _ => 0
    migrations := fun _ _ => 0 }

/-- Running the driver loop of `ccmpp` (ccmpp.h lines 179-181) for the first
`m` steps: `ccmppRun s m` is the state after `step_projection(0), ...,
step_projection(m-1)`. -/
def ccmppRun (s : PopulationProjection) : ℕ → PopulationProjection
  | 0 => s
  | m + 1 => step_projection (ccmppRun s m) m

/-- `ccmpp` (ccmpp.h lines 162-184): build the projection container from the
base population and parameter tables and advance every step.  `n_steps`,
`n_ages`, `n_fx` are the sizes the code reads from `sx.cols()`,
`basepop.rows()` and `fx.rows()`. -/
def ccmpp (basepop : ℕ → ℚ) (sx fx gx : ℕ → ℕ → ℚ) (srb : ℕ → ℚ)
    (age_span : ℚ) (fx_idx n_ages n_fx n_steps : ℕ) : PopulationProjection :=
  ccmppRun
    (PopulationProjection.init n_ages n_steps n_fx fx_idx age_span basepop
      sx fx gx srb) n_steps

/-- A concrete projection container used to instantiate the theorems on a
closed input: `n_ages = 3`, one step, `basepop = [100, 100, 100]`,
`sx = [1, 1, 1, 1]`, `fx = [0]` with `fx_idx = 1`, `gx = [0, 0, 0]`,
`srb = 0`, `age_span = 1` (the boundary scenario of the specification). -/
def sampleState : PopulationProjection :=
  PopulationProjection.init 3 1 1 1 1 (fun _ => 100) (fun _ _ => 1)
    (fun _ _ => 0) (fun _ _ => 0) (fun _ => 0)

/-- A second concrete container whose parameter tables agree with
`sampleState` on column `0` but differ on every later column (used to
instantiate the column-dependence theorem). -/
def sampleState2 : PopulationProjection :=
  PopulationProjection.init 3 1 1 1 1 (fun _ => 100)
    (fun _ j => if j = 0 then 1 else 7) (fun _ j => if j = 0 then 0 else 7)
    (fun _ j => if j = 0 then 0 else 7) (fun j => if j = 0 then 0 else 7)

/-! ### Helper lemmas on sums of filtered triple lists -/

lemma sum_filterMap_range (n : ℕ) (F : ℕ → ℕ × ℕ × ℚ) (r c : ℕ) :
    ((((List.range n).map F).filter (fun t => t.1 == r && t.2.1 == c)).map
        (fun t => t.2.2)).sum
      = ∑ i ∈ Finset.range n,
          if (F i).1 = r ∧ (F i).2.1 = c then (F i).2.2 else 0 := by
  induction n with
  | zero => simp
  | succ n ih =>
    rw [List.range_succ, List.map_append, List.filter_append, List.map_append,
      List.sum_append, ih, Finset.sum_range_succ]
    by_cases h : (F n).1 = r ∧ (F n).2.1 = c
    · rw [if_pos h]
      simp [List.filter_singleton, h.1, h.2]
    · rw [if_neg h]
      have hb : ((F n).1 == r && (F n).2.1 == c) = false := by
        rw [Bool.and_eq_false_iff]
        rcases Decidable.not_and_iff_or_not.mp h with h1 | h1
        · exact Or.inl (beq_eq_false_iff_ne.mpr h1)
        · exact Or.inr (beq_eq_false_iff_ne.mpr h1)
      simp [List.filter_singleton, hb]

lemma sum_ite_shift (n b c : ℕ) (f : ℕ → ℚ) :
    (∑ i ∈ Finset.range n, if b + i = c then f i else 0)
      = if b ≤ c ∧ c < b + n then f (c - b) else 0 := by
  by_cases h : b ≤ c ∧ c < b + n
  · rw [if_pos h]
    have hstep : ∀ i ∈ Finset.range n,
        (if b + i = c then f i else 0) = if i = c - b then f i else 0 := by
      intro i _
      have hiff : (b + i = c) ↔ (i = c - b) := by omega
      simp only [hiff]
    rw [Finset.sum_congr rfl hstep,
      Finset.sum_ite_eq' (Finset.range n) (c - b) f,
      if_pos (Finset.mem_range.mpr (by omega))]
  · rw [if_neg h]
    refine Finset.sum_eq_zero fun i hi => ?_
    have := Finset.mem_range.mp hi
    rw [if_neg (by omega)]

lemma sum_band (n b m : ℕ) (h : b + m ≤ n) (f : ℕ → ℚ) :
    (∑ c ∈ Finset.range n, if b ≤ c ∧ c < b + m then f (c - b) else 0)
      = ∑ i ∈ Finset.range m, f i := by
  induction m with
  | zero =>
    simp only [Finset.sum_range_zero]
    refine Finset.sum_eq_zero fun i _ => ?_
    have hn : ¬(b ≤ i ∧ i < b + 0) := by omega
    rw [if_neg hn]
  | succ m ih =>
    have h1 : b + m ≤ n := by omega
    rw [Finset.sum_range_succ, ← ih h1]
    have hsplit : ∀ c ∈ Finset.range n,
        (if b ≤ c ∧ c < b + (m + 1) then f (c - b) else 0)
          = (if b ≤ c ∧ c < b + m then f (c - b) else 0)
            + (if c = b + m then f m else 0) := by
      intro c _
      by_cases h2 : c = b + m
      · subst h2
        rw [if_pos (by omega), if_neg (by omega), if_pos rfl, zero_add]
        congr 1
        omega
      · by_cases h3 : b ≤ c ∧ c < b + m
        · rw [if_pos (by omega), if_pos h3, if_neg h2, add_zero]
        · rw [if_neg (by omega), if_neg h3, if_neg h2, add_zero]
    rw [Finset.sum_congr rfl hsplit, Finset.sum_add_distrib,
      Finset.sum_ite_eq' (Finset.range n) (b + m) (fun _ => f m),
      if_pos (Finset.mem_range.mpr (by omega))]

/-! ### Closed form of the Leslie matrix coefficients -/

lemma make_leslie_matrixWith_apply (sx fx : ℕ → ℚ) (n_ages n_fx : ℕ) (fk : ℚ)
    (fx_idx : ℕ) (hfx1 : 1 ≤ fx_idx) (r c : ℕ) :
    make_leslie_matrixWith sx fx n_ages n_fx fk fx_idx r c
      = (if r = 0 ∧ fx_idx - 1 ≤ c ∧ c < fx_idx + n_fx then
            fert_leslieWith sx fx n_fx fk fx_idx (c - (fx_idx - 1)) else 0)
        + (if 1 ≤ r ∧ r ≤ n_ages - 1 ∧ c = r - 1 then sx r else 0)
        + (if r = n_ages - 1 ∧ c = n_ages - 1 then sx n_ages else 0) := by
  unfold make_leslie_matrixWith leslieTriplesWith
  rw [List.filter_append, List.filter_append, List.map_append, List.map_append,
    List.sum_append, List.sum_append, sum_filterMap_range, sum_filterMap_range]
  congr 1
  · congr 1
    · -- fertility top-row triples
      by_cases hr : r = 0
      · subst hr
        have hterm : ∀ i ∈ Finset.range (n_fx + 1),
            (if (0 : ℕ) = 0 ∧ fx_idx + i - 1 = c then
                fert_leslieWith sx fx n_fx fk fx_idx i else 0)
              = if (fx_idx - 1) + i = c then
                  fert_leslieWith sx fx n_fx fk fx_idx i else 0 := by
          intro i _
          have hiff : ((0 : ℕ) = 0 ∧ fx_idx + i - 1 = c) ↔ ((fx_idx - 1) + i = c) := by
            omega
          rw [if_congr hiff rfl rfl]
        rw [Finset.sum_congr rfl hterm, sum_ite_shift]
        have hiff2 : (fx_idx - 1 ≤ c ∧ c < (fx_idx - 1) + (n_fx + 1))
            ↔ ((0 : ℕ) = 0 ∧ fx_idx - 1 ≤ c ∧ c < fx_idx + n_fx) := by omega
        rw [if_congr hiff2 rfl rfl]
      · rw [if_neg (fun hh => hr hh.1)]
        refine Finset.sum_eq_zero fun i _ => ?_
        rw [if_neg (fun hh => hr hh.1.symm)]
    · -- sub-diagonal triples
      by_cases h : 1 ≤ r ∧ r ≤ n_ages - 1 ∧ c = r - 1
      · rw [if_pos h]
        have hterm : ∀ i ∈ Finset.range (n_ages - 1),
            (if i + 1 = r ∧ i = c then sx (i + 1) else 0)
              = if i = r - 1 then sx (i + 1) else 0 := by
          intro i _
          have hiff : (i + 1 = r ∧ i = c) ↔ (i = r - 1) := by omega
          simp only [hiff]
        rw [Finset.sum_congr rfl hterm,
          Finset.sum_ite_eq' (Finset.range (n_ages - 1)) (r - 1)
            (fun i => sx (i + 1)),
          if_pos (Finset.mem_range.mpr (by omega))]
        congr 1
        omega
      · rw [if_neg h]
        refine Finset.sum_eq_zero fun i hi => ?_
        have hin := Finset.mem_range.mp hi
        have hn : ¬(i + 1 = r ∧ i = c) := by omega
        rw [if_neg hn]
  · -- terminal open-age triple
    by_cases h : r = n_ages - 1 ∧ c = n_ages - 1
    · rw [if_pos h]
      simp [List.filter_singleton, h.1, h.2]
    · rw [if_neg h]
      have hb : ((n_ages - 1 : ℕ) == r && (n_ages - 1 : ℕ) == c) = false := by
        rw [Bool.and_eq_false_iff]
        rcases Decidable.not_and_iff_or_not.mp h with h1 | h1
        · exact Or.inl (beq_eq_false_iff_ne.mpr (fun hh => h1 hh.symm))
        · exact Or.inr (beq_eq_false_iff_ne.mpr (fun hh => h1 hh.symm))
      simp [List.filter_singleton, hb]

lemma make_leslie_matrix_apply (sx fx : ℕ → ℚ) (n_ages n_fx : ℕ)
    (srb age_span : ℚ) (fx_idx : ℕ) (hfx1 : 1 ≤ fx_idx) (r c : ℕ) :
    make_leslie_matrix sx fx n_ages n_fx srb age_span fx_idx r c
      = (if r = 0 ∧ fx_idx - 1 ≤ c ∧ c < fx_idx + n_fx then
            fert_leslie sx fx n_fx srb age_span fx_idx (c - (fx_idx - 1)) else 0)
        + (if 1 ≤ r ∧ r ≤ n_ages - 1 ∧ c = r - 1 then sx r else 0)
        + (if r = n_ages - 1 ∧ c = n_ages - 1 then sx n_ages else 0) :=
  make_leslie_matrixWith_apply sx fx n_ages n_fx _ fx_idx hfx1 r c

/-! ### Evaluating the aged working population -/

lemma working2_mid (n_ages : ℕ) (sx gx pop : ℕ → ℚ) (a : ℕ)
    (h1 : 1 ≤ a) (h2 : a ≤ n_ages - 2) (hn : 2 ≤ n_ages) :
    Step.working2 n_ages sx gx pop a = Step.working1 gx pop (a - 1) * sx a := by
  unfold Step.working2
  rw [if_pos ⟨h1, by omega⟩, if_neg (by omega), add_zero]
  unfold Step.deathsUpper
  ring

lemma working2_top (n_ages : ℕ) (sx gx pop : ℕ → ℚ) (hn : 2 ≤ n_ages) :
    Step.working2 n_ages sx gx pop (n_ages - 1)
      = Step.working1 gx pop (n_ages - 2) * sx (n_ages - 1)
        + Step.working1 gx pop (n_ages - 1) * sx n_ages := by
  unfold Step.working2 Step.openAgeSurvivors
  rw [if_pos ⟨by omega, le_refl _⟩, if_pos rfl]
  unfold Step.deathsUpper
  have h12 : n_ages - 1 - 1 = n_ages - 2 := by omega
  rw [h12]
  ring

/-! ### Row-wise evaluation of the Leslie matrix-vector product -/

lemma sum_band2 (n b m : ℕ) (h : b + m ≤ n) (g : ℕ → ℚ) :
    (∑ c ∈ Finset.range n, if b ≤ c ∧ c < b + m then g c else 0)
      = ∑ i ∈ Finset.range m, g (b + i) := by
  induction m with
  | zero =>
    simp only [Finset.sum_range_zero]
    refine Finset.sum_eq_zero fun i _ => ?_
    have hn : ¬(b ≤ i ∧ i < b + 0) := by omega
    rw [if_neg hn]
  | succ m ih =>
    have h1 : b + m ≤ n := by omega
    rw [Finset.sum_range_succ, ← ih h1]
    have hsplit : ∀ c ∈ Finset.range n,
        (if b ≤ c ∧ c < b + (m + 1) then g c else 0)
          = (if b ≤ c ∧ c < b + m then g c else 0)
            + (if c = b + m then g c else 0) := by
      intro c _
      by_cases h2 : c = b + m
      · subst h2
        rw [if_pos (by omega), if_neg (by omega), if_pos rfl, zero_add]
      · by_cases h3 : b ≤ c ∧ c < b + m
        · rw [if_pos (by omega), if_pos h3, if_neg h2, add_zero]
        · rw [if_neg (by omega), if_neg h3, if_neg h2, add_zero]
    rw [Finset.sum_congr rfl hsplit, Finset.sum_add_distrib,
      Finset.sum_ite_eq' (Finset.range n) (b + m) g,
      if_pos (Finset.mem_range.mpr (by omega))]

lemma matVec_leslie_split (sx fx : ℕ → ℚ) (n_ages n_fx fx_idx : ℕ)
    (srb age_span : ℚ) (q : ℕ → ℚ) (hfx1 : 1 ≤ fx_idx) (a : ℕ) :
    matVec (make_leslie_matrix sx fx n_ages n_fx srb age_span fx_idx) n_ages q a
      = (∑ c ∈ Finset.range n_ages,
          (if a = 0 ∧ fx_idx - 1 ≤ c ∧ c < fx_idx + n_fx then
              fert_leslie sx fx n_fx srb age_span fx_idx (c - (fx_idx - 1)) * q c
            else 0))
        + (∑ c ∈ Finset.range n_ages,
            (if 1 ≤ a ∧ a ≤ n_ages - 1 ∧ c = a - 1 then sx a * q c else 0))
        + (∑ c ∈ Finset.range n_ages,
            (if a = n_ages - 1 ∧ c = n_ages - 1 then sx n_ages * q c else 0)) := by
  unfold matVec
  rw [← Finset.sum_add_distrib, ← Finset.sum_add_distrib]
  refine Finset.sum_congr rfl fun c _ => ?_
  rw [make_leslie_matrix_apply sx fx n_ages n_fx srb age_span fx_idx hfx1 a c]
  rw [add_mul, add_mul]
  congr 1
  · congr 1
    · rw [ite_mul, zero_mul]
    · rw [ite_mul, zero_mul]
  · rw [ite_mul, zero_mul]

lemma matVec_leslie_row_pos (sx fx : ℕ → ℚ) (n_ages n_fx fx_idx : ℕ)
    (srb age_span : ℚ) (q : ℕ → ℚ) (hfx1 : 1 ≤ fx_idx)
    (a : ℕ) (h1 : 1 ≤ a) (h2 : a ≤ n_ages - 1) :
    matVec (make_leslie_matrix sx fx n_ages n_fx srb age_span fx_idx) n_ages q a
      = sx a * q (a - 1)
        + (if a = n_ages - 1 then sx n_ages * q (n_ages - 1) else 0) := by
  rw [matVec_leslie_split sx fx n_ages n_fx fx_idx srb age_span q hfx1 a]
  have hz : (∑ c ∈ Finset.range n_ages,
      (if a = 0 ∧ fx_idx - 1 ≤ c ∧ c < fx_idx + n_fx then
          fert_leslie sx fx n_fx srb age_span fx_idx (c - (fx_idx - 1)) * q c
        else 0)) = 0 := by
    refine Finset.sum_eq_zero fun c _ => ?_
    have hfalse : ¬(a = 0 ∧ fx_idx - 1 ≤ c ∧ c < fx_idx + n_fx) := by omega
    rw [if_neg hfalse]
  have hsub : (∑ c ∈ Finset.range n_ages,
      (if 1 ≤ a ∧ a ≤ n_ages - 1 ∧ c = a - 1 then sx a * q c else 0))
        = sx a * q (a - 1) := by
    have hterm : ∀ c ∈ Finset.range n_ages,
        (if 1 ≤ a ∧ a ≤ n_ages - 1 ∧ c = a - 1 then sx a * q c else 0)
          = if c = a - 1 then sx a * q c else 0 := by
      intro c _
      have hiff : (1 ≤ a ∧ a ≤ n_ages - 1 ∧ c = a - 1) ↔ (c = a - 1) := by
        constructor
        · exact fun hh => hh.2.2
        · exact fun hh => ⟨h1, h2, hh⟩
      rw [if_congr hiff rfl rfl]
    rw [Finset.sum_congr rfl hterm,
      Finset.sum_ite_eq' (Finset.range n_ages) (a - 1) (fun c => sx a * q c),
      if_pos (Finset.mem_range.mpr (by omega))]
  have hterminal : (∑ c ∈ Finset.range n_ages,
      (if a = n_ages - 1 ∧ c = n_ages - 1 then sx n_ages * q c else 0))
        = if a = n_ages - 1 then sx n_ages * q (n_ages - 1) else 0 := by
    by_cases htop : a = n_ages - 1
    · rw [if_pos htop]
      have hterm : ∀ c ∈ Finset.range n_ages,
          (if a = n_ages - 1 ∧ c = n_ages - 1 then sx n_ages * q c else 0)
            = if c = n_ages - 1 then sx n_ages * q c else 0 := by
        intro c _
        have hiff : (a = n_ages - 1 ∧ c = n_ages - 1) ↔ (c = n_ages - 1) :=
          ⟨fun hh => hh.2, fun hh => ⟨htop, hh⟩⟩
        rw [if_congr hiff rfl rfl]
      rw [Finset.sum_congr rfl hterm,
        Finset.sum_ite_eq' (Finset.range n_ages) (n_ages - 1)
          (fun c => sx n_ages * q c),
        if_pos (Finset.mem_range.mpr (by omega))]
    · rw [if_neg htop]
      refine Finset.sum_eq_zero fun c _ => ?_
      rw [if_neg (fun hh => htop hh.1)]
  rw [hz, hsub, hterminal, zero_add]

lemma matVec_leslie_row_zero (sx fx : ℕ → ℚ) (n_ages n_fx fx_idx : ℕ)
    (srb age_span : ℚ) (q : ℕ → ℚ) (hfx1 : 1 ≤ fx_idx) (hn : 2 ≤ n_ages)
    (hband : fx_idx + n_fx ≤ n_ages) :
    matVec (make_leslie_matrix sx fx n_ages n_fx srb age_span fx_idx) n_ages q 0
      = ∑ i ∈ Finset.range (n_fx + 1),
          fert_leslie sx fx n_fx srb age_span fx_idx i * q ((fx_idx - 1) + i) := by
  rw [matVec_leslie_split sx fx n_ages n_fx fx_idx srb age_span q hfx1 0]
  have hsub : (∑ c ∈ Finset.range n_ages,
      (if 1 ≤ 0 ∧ 0 ≤ n_ages - 1 ∧ c = 0 - 1 then sx 0 * q c else 0)) = 0 := by
    refine Finset.sum_eq_zero fun c _ => ?_
    have hfalse : ¬(1 ≤ 0 ∧ 0 ≤ n_ages - 1 ∧ c = 0 - 1) := by omega
    rw [if_neg hfalse]
  have hterminal : (∑ c ∈ Finset.range n_ages,
      (if 0 = n_ages - 1 ∧ c = n_ages - 1 then sx n_ages * q c else 0)) = 0 := by
    refine Finset.sum_eq_zero fun c _ => ?_
    have hfalse : ¬((0 : ℕ) = n_ages - 1 ∧ c = n_ages - 1) := by omega
    rw [if_neg hfalse]
  rw [hsub, hterminal, add_zero, add_zero]
  have hterm : ∀ c ∈ Finset.range n_ages,
      (if (0 : ℕ) = 0 ∧ fx_idx - 1 ≤ c ∧ c < fx_idx + n_fx then
          fert_leslie sx fx n_fx srb age_span fx_idx (c - (fx_idx - 1)) * q c
        else 0)
        = if fx_idx - 1 ≤ c ∧ c < (fx_idx - 1) + (n_fx + 1) then
            fert_leslie sx fx n_fx srb age_span fx_idx (c - (fx_idx - 1)) * q c
          else 0 := by
    intro c _
    have hiff : ((0 : ℕ) = 0 ∧ fx_idx - 1 ≤ c ∧ c < fx_idx + n_fx)
        ↔ (fx_idx - 1 ≤ c ∧ c < (fx_idx - 1) + (n_fx + 1)) := by omega
    rw [if_congr hiff rfl rfl]
  rw [Finset.sum_congr rfl hterm,
    sum_band2 n_ages (fx_idx - 1) (n_fx + 1) (by omega)
      (fun c => fert_leslie sx fx n_fx srb age_span fx_idx (c - (fx_idx - 1)) * q c)]
  refine Finset.sum_congr rfl fun i _ => ?_
  have harith : (fx_idx - 1) + i - (fx_idx - 1) = i := by omega
  rw [harith]

/-! ### Equivalence of the matrix-form step with the direct-recurrence step -/

lemma fert_sum_eq (sx fx : ℕ → ℚ) (n_fx fx_idx : ℕ) (srb age_span : ℚ)
    (q : ℕ → ℚ) (hfx1 : 1 ≤ fx_idx) :
    ∑ i ∈ Finset.range (n_fx + 1),
        fert_leslie sx fx n_fx srb age_span fx_idx i * q ((fx_idx - 1) + i)
      = (∑ i ∈ Finset.range n_fx,
          fx i * (sx (fx_idx + i) * q ((fx_idx - 1) + i) + q (fx_idx + i)))
          * fert_k sx srb age_span := by
  have hterm1 : ∀ i ∈ Finset.range (n_fx + 1),
      fert_leslie sx fx n_fx srb age_span fx_idx i * q ((fx_idx - 1) + i)
        = (if i < n_fx then fx i * sx (fx_idx + i) else 0) *
              fert_k sx srb age_span * q ((fx_idx - 1) + i)
          + (if 1 ≤ i then fx (i - 1) else 0) *
              fert_k sx srb age_span * q ((fx_idx - 1) + i) := by
    intro i _
    unfold fert_leslie fert_leslieWith
    ring
  rw [Finset.sum_congr rfl hterm1, Finset.sum_add_distrib]
  have h1 : (∑ i ∈ Finset.range (n_fx + 1),
      (if i < n_fx then fx i * sx (fx_idx + i) else 0) *
        fert_k sx srb age_span * q ((fx_idx - 1) + i))
      = ∑ i ∈ Finset.range n_fx,
          fx i * sx (fx_idx + i) * fert_k sx srb age_span *
            q ((fx_idx - 1) + i) := by
    rw [Finset.sum_range_succ, if_neg (lt_irrefl n_fx), zero_mul, zero_mul,
      add_zero]
    refine Finset.sum_congr rfl fun i hi => ?_
    rw [if_pos (Finset.mem_range.mp hi)]
  have h2 : (∑ i ∈ Finset.range (n_fx + 1),
      (if 1 ≤ i then fx (i - 1) else 0) *
        fert_k sx srb age_span * q ((fx_idx - 1) + i))
      = ∑ i ∈ Finset.range n_fx,
          fx i * fert_k sx srb age_span * q (fx_idx + i) := by
    rw [Finset.sum_range_succ']
    have hz : ¬(1 ≤ (0 : ℕ)) := by omega
    rw [if_neg hz, zero_mul, zero_mul, add_zero]
    refine Finset.sum_congr rfl fun i _ => ?_
    have hp : 1 ≤ i + 1 := by omega
    rw [if_pos hp]
    have e1 : i + 1 - 1 = i := by omega
    have e2 : (fx_idx - 1) + (i + 1) = fx_idx + i := by omega
    rw [e1, e2]
  rw [h1, h2, ← Finset.sum_add_distrib, Finset.sum_mul]
  refine Finset.sum_congr rfl fun i _ => ?_
  ring

lemma birthsCol_sum_eq (n_ages n_fx fx_idx : ℕ) (age_span : ℚ)
    (sx fx gx pop : ℕ → ℚ) (hn : 2 ≤ n_ages) (hfx1 : 1 ≤ fx_idx)
    (hfx2 : fx_idx + n_fx ≤ n_ages - 1) :
    ∑ i ∈ Finset.range n_fx, Step.birthsCol n_ages age_span sx fx gx pop fx_idx i
      = (1/2) * age_span *
          (∑ i ∈ Finset.range n_fx,
            fx i * (sx (fx_idx + i) * Step.working1 gx pop ((fx_idx - 1) + i)
              + Step.working1 gx pop (fx_idx + i))) := by
  rw [Finset.mul_sum]
  refine Finset.sum_congr rfl fun i hi => ?_
  have hi2 := Finset.mem_range.mp hi
  unfold Step.birthsCol Step.births1 Step.births2
  rw [working2_mid n_ages sx gx pop (fx_idx + i) (by omega) (by omega) hn]
  have e1 : fx_idx + i - 1 = (fx_idx - 1) + i := by omega
  rw [e1]
  ring

lemma leslieStep_eq_working4 (sx fx gx : ℕ → ℚ) (srb age_span : ℚ)
    (fx_idx n_ages n_fx : ℕ) (pop : ℕ → ℚ)
    (hn : 2 ≤ n_ages) (hfx1 : 1 ≤ fx_idx) (hfx2 : fx_idx + n_fx ≤ n_ages - 1)
    (a : ℕ) (ha : a < n_ages) :
    leslieStep sx fx gx srb age_span fx_idx n_ages n_fx pop a
      = Step.working4 n_ages n_fx age_span sx fx gx pop fx_idx srb a := by
  unfold leslieStep
  have hq : (fun c => pop c + (1/2) * (pop c * gx c)) = Step.working1 gx pop := by
    funext c
    unfold Step.working1 Step.migrants
    ring
  rw [hq]
  unfold Step.working4 Step.working3
  by_cases ha0 : a = 0
  · subst ha0
    rw [if_pos rfl,
      matVec_leslie_row_zero sx fx n_ages n_fx fx_idx srb age_span _ hfx1 hn
        (by omega),
      fert_sum_eq sx fx n_fx fx_idx srb age_span _ hfx1]
    unfold Step.infantsVal Step.deaths0 Step.infantsVal
    rw [birthsCol_sum_eq n_ages n_fx fx_idx age_span sx fx gx pop hn hfx1 hfx2]
    unfold fert_k Step.migrants
    ring
  · rw [if_neg ha0,
      matVec_leslie_row_pos sx fx n_ages n_fx fx_idx srb age_span _ hfx1
        a (by omega) (by omega)]
    by_cases hatop : a = n_ages - 1
    · subst hatop
      rw [if_pos rfl, working2_top n_ages sx gx pop hn]
      unfold Step.migrants
      have e : n_ages - 1 - 1 = n_ages - 2 := by omega
      rw [e]
      ring
    · rw [if_neg hatop,
        working2_mid n_ages sx gx pop a (by omega) (by omega) hn]
      unfold Step.migrants
      ring

/-! ### Frame lemmas: what a single step writes and what it leaves alone -/

lemma step_projection_sx (s : PopulationProjection) (k : ℕ) :
    (step_projection s k).sx = s.sx := rfl

lemma step_projection_fx (s : PopulationProjection) (k : ℕ) :
    (step_projection s k).fx = s.fx := rfl

lemma step_projection_gx (s : PopulationProjection) (k : ℕ) :
    (step_projection s k).gx = s.gx := rfl

lemma step_projection_srb (s : PopulationProjection) (k : ℕ) :
    (step_projection s k).srb = s.srb := rfl

lemma step_projection_n_ages (s : PopulationProjection) (k : ℕ) :
    (step_projection s k).n_ages = s.n_ages := rfl

lemma step_projection_n_steps (s : PopulationProjection) (k : ℕ) :
    (step_projection s k).n_steps = s.n_steps := rfl

lemma step_projection_n_fx (s : PopulationProjection) (k : ℕ) :
    (step_projection s k).n_fx = s.n_fx := rfl

lemma step_projection_fx_idx (s : PopulationProjection) (k : ℕ) :
    (step_projection s k).fx_idx = s.fx_idx := rfl

lemma step_projection_age_span (s : PopulationProjection) (k : ℕ) :
    (step_projection s k).age_span = s.age_span := rfl

lemma step_projection_population_frame (s : PopulationProjection) (k a j : ℕ)
    (hj : j ≠ k + 1) :
    (step_projection s k).population a j = s.population a j := by
  have hcond : ¬(j = k + 1 ∧ a < s.n_ages) := fun hh => hj hh.1
  simp only [step_projection]
  rw [if_neg hcond]

lemma step_projection_deaths_frame (s : PopulationProjection) (k a j : ℕ)
    (hj : j ≠ k) :
    (step_projection s k).deaths a j = s.deaths a j := by
  have hcond : ¬(j = k ∧ a < s.n_ages + 1) := fun hh => hj hh.1
  simp only [step_projection]
  rw [if_neg hcond]

lemma step_projection_births_frame (s : PopulationProjection) (k i j : ℕ)
    (hj : j ≠ k) :
    (step_projection s k).births i j = s.births i j := by
  have hcond : ¬(j = k ∧ i < s.n_fx) := fun hh => hj hh.1
  simp only [step_projection]
  rw [if_neg hcond]

lemma step_projection_infants_frame (s : PopulationProjection) (k j : ℕ)
    (hj : j ≠ k) :
    (step_projection s k).infants j = s.infants j := by
  simp only [step_projection]
  rw [if_neg hj]

lemma step_projection_migrations_frame (s : PopulationProjection) (k a j : ℕ)
    (hj : j ≠ k) :
    (step_projection s k).migrations a j = s.migrations a j := by
  have hcond : ¬(j = k ∧ a < s.n_ages) := fun hh => hj hh.1
  simp only [step_projection]
  rw [if_neg hcond]

lemma step_projection_population_row_frame (s : PopulationProjection)
    (k a j : ℕ) (ha : s.n_ages ≤ a) :
    (step_projection s k).population a j = s.population a j := by
  have hcond : ¬(j = k + 1 ∧ a < s.n_ages) := fun hh => by omega
  simp only [step_projection]
  rw [if_neg hcond]

lemma step_projection_population_write (s : PopulationProjection) (k a : ℕ)
    (ha : a < s.n_ages) :
    (step_projection s k).population a (k + 1)
      = Step.working4 s.n_ages s.n_fx s.age_span (fun b => s.sx b k)
          (fun b => s.fx b k) (fun b => s.gx b k) (fun b => s.population b k)
          s.fx_idx (s.srb k) a := by
  simp only [step_projection]
  rw [if_pos ⟨trivial, ha⟩]

lemma step_projection_deaths_write (s : PopulationProjection) (k a : ℕ)
    (ha : a < s.n_ages + 1) :
    (step_projection s k).deaths a k
      = if a = 0 then
          Step.deaths0 s.n_ages s.n_fx s.age_span (fun b => s.sx b k)
            (fun b => s.fx b k) (fun b => s.gx b k) (fun b => s.population b k)
            s.fx_idx (s.srb k)
        else Step.deathsUpper (fun b => s.sx b k) (fun b => s.gx b k)
            (fun b => s.population b k) a := by
  simp only [step_projection]
  rw [if_pos ⟨trivial, ha⟩]

lemma step_projection_births_write (s : PopulationProjection) (k i : ℕ)
    (hi : i < s.n_fx) :
    (step_projection s k).births i k
      = Step.birthsCol s.n_ages s.age_span (fun b => s.sx b k)
          (fun b => s.fx b k) (fun b => s.gx b k) (fun b => s.population b k)
          s.fx_idx i := by
  simp only [step_projection]
  rw [if_pos ⟨trivial, hi⟩]

lemma step_projection_infants_write (s : PopulationProjection) (k : ℕ) :
    (step_projection s k).infants k
      = Step.infantsVal s.n_ages s.n_fx s.age_span (fun b => s.sx b k)
          (fun b => s.fx b k) (fun b => s.gx b k) (fun b => s.population b k)
          s.fx_idx (s.srb k) := by
  simp only [step_projection]
  rw [if_pos trivial]

lemma step_projection_migrations_write (s : PopulationProjection) (k a : ℕ)
    (ha : a < s.n_ages) :
    (step_projection s k).migrations a k
      = Step.migrants (fun b => s.gx b k) (fun b => s.population b k) a := by
  simp only [step_projection]
  rw [if_pos ⟨trivial, ha⟩]

/-! ### The driver loop: stability of already-written columns -/

lemma ccmppRun_sx (s : PopulationProjection) (m : ℕ) :
    (ccmppRun s m).sx = s.sx := by
  induction m with
  | zero => rfl
  | succ m ih => rw [ccmppRun, step_projection_sx, ih]

lemma ccmppRun_fx (s : PopulationProjection) (m : ℕ) :
    (ccmppRun s m).fx = s.fx := by
  induction m with
  | zero => rfl
  | succ m ih => rw [ccmppRun, step_projection_fx, ih]

lemma ccmppRun_gx (s : PopulationProjection) (m : ℕ) :
    (ccmppRun s m).gx = s.gx := by
  induction m with
  | zero => rfl
  | succ m ih => rw [ccmppRun, step_projection_gx, ih]

lemma ccmppRun_srb (s : PopulationProjection) (m : ℕ) :
    (ccmppRun s m).srb = s.srb := by
  induction m with
  | zero => rfl
  | succ m ih => rw [ccmppRun, step_projection_srb, ih]

lemma ccmppRun_n_ages (s : PopulationProjection) (m : ℕ) :
    (ccmppRun s m).n_ages = s.n_ages := by
  induction m with
  | zero => rfl
  | succ m ih => rw [ccmppRun, step_projection_n_ages, ih]

lemma ccmppRun_n_fx (s : PopulationProjection) (m : ℕ) :
    (ccmppRun s m).n_fx = s.n_fx := by
  induction m with
  | zero => rfl
  | succ m ih => rw [ccmppRun, step_projection_n_fx, ih]

lemma ccmppRun_fx_idx (s : PopulationProjection) (m : ℕ) :
    (ccmppRun s m).fx_idx = s.fx_idx := by
  induction m with
  | zero => rfl
  | succ m ih => rw [ccmppRun, step_projection_fx_idx, ih]

lemma ccmppRun_age_span (s : PopulationProjection) (m : ℕ) :
    (ccmppRun s m).age_span = s.age_span := by
  induction m with
  | zero => rfl
  | succ m ih => rw [ccmppRun, step_projection_age_span, ih]

lemma ccmppRun_population_stable (s : PopulationProjection) (a k m : ℕ)
    (hm : k ≤ m) :
    (ccmppRun s m).population a k = (ccmppRun s k).population a k := by
  induction m with
  | zero =>
    have h0 : k = 0 := by omega
    subst h0
    rfl
  | succ m ih =>
    by_cases hk : k = m + 1
    · subst hk
      rfl
    · have h2 : k ≤ m := by omega
      show (step_projection (ccmppRun s m) m).population a k = _
      rw [step_projection_population_frame _ _ _ _ (by omega), ih h2]

lemma ccmppRun_deaths_stable (s : PopulationProjection) (a k m : ℕ)
    (hm : k + 1 ≤ m) :
    (ccmppRun s m).deaths a k = (ccmppRun s (k + 1)).deaths a k := by
  induction m with
  | zero => omega
  | succ m ih =>
    by_cases hk : k + 1 = m + 1
    · rw [hk]
    · have h2 : k + 1 ≤ m := by omega
      show (step_projection (ccmppRun s m) m).deaths a k = _
      rw [step_projection_deaths_frame _ _ _ _ (by omega), ih h2]

lemma ccmppRun_births_stable (s : PopulationProjection) (i k m : ℕ)
    (hm : k + 1 ≤ m) :
    (ccmppRun s m).births i k = (ccmppRun s (k + 1)).births i k := by
  induction m with
  | zero => omega
  | succ m ih =>
    by_cases hk : k + 1 = m + 1
    · rw [hk]
    · have h2 : k + 1 ≤ m := by omega
      show (step_projection (ccmppRun s m) m).births i k = _
      rw [step_projection_births_frame _ _ _ _ (by omega), ih h2]

lemma ccmppRun_infants_stable (s : PopulationProjection) (k m : ℕ)
    (hm : k + 1 ≤ m) :
    (ccmppRun s m).infants k = (ccmppRun s (k + 1)).infants k := by
  induction m with
  | zero => omega
  | succ m ih =>
    by_cases hk : k + 1 = m + 1
    · rw [hk]
    · have h2 : k + 1 ≤ m := by omega
      show (step_projection (ccmppRun s m) m).infants k = _
      rw [step_projection_infants_frame _ _ _ (by omega), ih h2]

lemma ccmppRun_migrations_stable (s : PopulationProjection) (a k m : ℕ)
    (hm : k + 1 ≤ m) :
    (ccmppRun s m).migrations a k = (ccmppRun s (k + 1)).migrations a k := by
  induction m with
  | zero => omega
  | succ m ih =>
    by_cases hk : k + 1 = m + 1
    · rw [hk]
    · have h2 : k + 1 ≤ m := by omega
      show (step_projection (ccmppRun s m) m).migrations a k = _
      rw [step_projection_migrations_frame _ _ _ _ (by omega), ih h2]

/-! ### The step reads only the in-range entries of the current columns -/

lemma working1_congr (n : ℕ) (gx1 gx2 pop1 pop2 : ℕ → ℚ)
    (hgx : ∀ b, b < n → gx1 b = gx2 b) (hpop : ∀ b, b < n → pop1 b = pop2 b)
    (b : ℕ) (hb : b < n) :
    Step.working1 gx1 pop1 b = Step.working1 gx2 pop2 b := by
  unfold Step.working1 Step.migrants
  rw [hgx b hb, hpop b hb]

lemma deathsUpper_congr (n : ℕ) (sx1 sx2 gx1 gx2 pop1 pop2 : ℕ → ℚ)
    (hsx : ∀ b, b < n + 1 → sx1 b = sx2 b)
    (hgx : ∀ b, b < n → gx1 b = gx2 b) (hpop : ∀ b, b < n → pop1 b = pop2 b)
    (hn : 1 ≤ n) (a : ℕ) (ha : a ≤ n) :
    Step.deathsUpper sx1 gx1 pop1 a = Step.deathsUpper sx2 gx2 pop2 a := by
  unfold Step.deathsUpper
  rw [working1_congr n gx1 gx2 pop1 pop2 hgx hpop (a - 1) (by omega),
    hsx a (by omega)]

lemma openAgeSurvivors_congr (n : ℕ) (sx1 sx2 gx1 gx2 pop1 pop2 : ℕ → ℚ)
    (hsx : ∀ b, b < n + 1 → sx1 b = sx2 b)
    (hgx : ∀ b, b < n → gx1 b = gx2 b) (hpop : ∀ b, b < n → pop1 b = pop2 b)
    (hn : 1 ≤ n) :
    Step.openAgeSurvivors n sx1 gx1 pop1 = Step.openAgeSurvivors n sx2 gx2 pop2 := by
  unfold Step.openAgeSurvivors
  rw [working1_congr n gx1 gx2 pop1 pop2 hgx hpop (n - 1) (by omega),
    deathsUpper_congr n sx1 sx2 gx1 gx2 pop1 pop2 hsx hgx hpop hn n (le_refl n)]

lemma working2_congr (n : ℕ) (sx1 sx2 gx1 gx2 pop1 pop2 : ℕ → ℚ)
    (hsx : ∀ b, b < n + 1 → sx1 b = sx2 b)
    (hgx : ∀ b, b < n → gx1 b = gx2 b) (hpop : ∀ b, b < n → pop1 b = pop2 b)
    (hn : 1 ≤ n) (a : ℕ) (ha : a < n) :
    Step.working2 n sx1 gx1 pop1 a = Step.working2 n sx2 gx2 pop2 a := by
  unfold Step.working2
  congr 1
  · split_ifs with h
    · rw [working1_congr n gx1 gx2 pop1 pop2 hgx hpop (a - 1) (by omega),
        deathsUpper_congr n sx1 sx2 gx1 gx2 pop1 pop2 hsx hgx hpop hn a (by omega)]
    · rw [working1_congr n gx1 gx2 pop1 pop2 hgx hpop a ha]
  · split_ifs with h
    · exact openAgeSurvivors_congr n sx1 sx2 gx1 gx2 pop1 pop2 hsx hgx hpop hn
    · rfl

lemma birthsCol_congr (n n_fx fx_idx : ℕ) (age_span : ℚ)
    (sx1 sx2 fx1 fx2 gx1 gx2 pop1 pop2 : ℕ → ℚ)
    (hsx : ∀ b, b < n + 1 → sx1 b = sx2 b)
    (hfx : ∀ j, j < n_fx → fx1 j = fx2 j)
    (hgx : ∀ b, b < n → gx1 b = gx2 b) (hpop : ∀ b, b < n → pop1 b = pop2 b)
    (hn : 1 ≤ n) (i : ℕ) (hi : i < n_fx) (hidx : fx_idx + i < n) :
    Step.birthsCol n age_span sx1 fx1 gx1 pop1 fx_idx i
      = Step.birthsCol n age_span sx2 fx2 gx2 pop2 fx_idx i := by
  unfold Step.birthsCol Step.births1 Step.births2
  rw [hfx i hi,
    working1_congr n gx1 gx2 pop1 pop2 hgx hpop (fx_idx + i) hidx,
    working2_congr n sx1 sx2 gx1 gx2 pop1 pop2 hsx hgx hpop hn (fx_idx + i) hidx]

lemma infantsVal_congr (n n_fx fx_idx : ℕ) (age_span srb1 srb2 : ℚ)
    (sx1 sx2 fx1 fx2 gx1 gx2 pop1 pop2 : ℕ → ℚ)
    (hsx : ∀ b, b < n + 1 → sx1 b = sx2 b)
    (hfx : ∀ j, j < n_fx → fx1 j = fx2 j)
    (hgx : ∀ b, b < n → gx1 b = gx2 b) (hpop : ∀ b, b < n → pop1 b = pop2 b)
    (hsrb : srb1 = srb2) (hn : 1 ≤ n) (hband : fx_idx + n_fx ≤ n) :
    Step.infantsVal n n_fx age_span sx1 fx1 gx1 pop1 fx_idx srb1
      = Step.infantsVal n n_fx age_span sx2 fx2 gx2 pop2 fx_idx srb2 := by
  unfold Step.infantsVal
  rw [hsrb]
  congr 1
  refine Finset.sum_congr rfl fun i hi => ?_
  have hi2 := Finset.mem_range.mp hi
  exact birthsCol_congr n n_fx fx_idx age_span sx1 sx2 fx1 fx2 gx1 gx2 pop1 pop2
    hsx hfx hgx hpop hn i hi2 (by omega)

lemma deaths0_congr (n n_fx fx_idx : ℕ) (age_span srb1 srb2 : ℚ)
    (sx1 sx2 fx1 fx2 gx1 gx2 pop1 pop2 : ℕ → ℚ)
    (hsx : ∀ b, b < n + 1 → sx1 b = sx2 b)
    (hfx : ∀ j, j < n_fx → fx1 j = fx2 j)
    (hgx : ∀ b, b < n → gx1 b = gx2 b) (hpop : ∀ b, b < n → pop1 b = pop2 b)
    (hsrb : srb1 = srb2) (hn : 1 ≤ n) (hband : fx_idx + n_fx ≤ n) :
    Step.deaths0 n n_fx age_span sx1 fx1 gx1 pop1 fx_idx srb1
      = Step.deaths0 n n_fx age_span sx2 fx2 gx2 pop2 fx_idx srb2 := by
  unfold Step.deaths0
  rw [infantsVal_congr n n_fx fx_idx age_span srb1 srb2 sx1 sx2 fx1 fx2 gx1 gx2
      pop1 pop2 hsx hfx hgx hpop hsrb hn hband,
    hsx 0 (by omega)]

lemma working4_congr (n n_fx fx_idx : ℕ) (age_span srb1 srb2 : ℚ)
    (sx1 sx2 fx1 fx2 gx1 gx2 pop1 pop2 : ℕ → ℚ)
    (hsx : ∀ b, b < n + 1 → sx1 b = sx2 b)
    (hfx : ∀ j, j < n_fx → fx1 j = fx2 j)
    (hgx : ∀ b, b < n → gx1 b = gx2 b) (hpop : ∀ b, b < n → pop1 b = pop2 b)
    (hsrb : srb1 = srb2) (hn : 1 ≤ n) (hband : fx_idx + n_fx ≤ n)
    (a : ℕ) (ha : a < n) :
    Step.working4 n n_fx age_span sx1 fx1 gx1 pop1 fx_idx srb1 a
      = Step.working4 n n_fx age_span sx2 fx2 gx2 pop2 fx_idx srb2 a := by
  unfold Step.working4 Step.working3
  congr 1
  · split_ifs with h
    · rw [infantsVal_congr n n_fx fx_idx age_span srb1 srb2 sx1 sx2 fx1 fx2
          gx1 gx2 pop1 pop2 hsx hfx hgx hpop hsrb hn hband,
        deaths0_congr n n_fx fx_idx age_span srb1 srb2 sx1 sx2 fx1 fx2
          gx1 gx2 pop1 pop2 hsx hfx hgx hpop hsrb hn hband]
    · exact working2_congr n sx1 sx2 gx1 gx2 pop1 pop2 hsx hgx hpop hn a ha
  · unfold Step.migrants
    rw [hgx a ha, hpop a ha]

/-! ### Full-horizon equivalence of the two paths -/

lemma ccmppRun_population_eq_leslie (s : PopulationProjection)
    (hn : 2 ≤ s.n_ages) (hfx1 : 1 ≤ s.fx_idx)
    (hfx2 : s.fx_idx + s.n_fx ≤ s.n_ages - 1) :
    ∀ k a, a < s.n_ages →
      (ccmppRun s k).population a k
        = ccmpp_leslie (fun b => s.population b 0) s.sx s.fx s.gx s.srb
            s.age_span s.fx_idx s.n_ages s.n_fx k a := by
  intro k
  induction k with
  | zero =>
    intro a ha
    rfl
  | succ k ih =>
    intro a ha
    show (step_projection (ccmppRun s k) k).population a (k + 1) = _
    have hna : a < (ccmppRun s k).n_ages := by rw [ccmppRun_n_ages]; exact ha
    rw [step_projection_population_write (ccmppRun s k) k a hna,
      ccmppRun_n_ages, ccmppRun_n_fx, ccmppRun_age_span, ccmppRun_sx,
      ccmppRun_fx, ccmppRun_gx, ccmppRun_srb, ccmppRun_fx_idx]
    have hles : ccmpp_leslie (fun b => s.population b 0) s.sx s.fx s.gx s.srb
        s.age_span s.fx_idx s.n_ages s.n_fx (k + 1) a
          = leslieStep (fun b => s.sx b k) (fun b => s.fx b k)
              (fun b => s.gx b k) (s.srb k) s.age_span s.fx_idx s.n_ages s.n_fx
              (ccmpp_leslie (fun b => s.population b 0) s.sx s.fx s.gx s.srb
                s.age_span s.fx_idx s.n_ages s.n_fx k) a := rfl
    rw [hles,
      leslieStep_eq_working4 (fun b => s.sx b k) (fun b => s.fx b k)
        (fun b => s.gx b k) (s.srb k) s.age_span s.fx_idx s.n_ages s.n_fx
        (ccmpp_leslie (fun b => s.population b 0) s.sx s.fx s.gx s.srb
          s.age_span s.fx_idx s.n_ages s.n_fx k) hn hfx1 hfx2 a ha]
    exact working4_congr s.n_ages s.n_fx s.fx_idx s.age_span (s.srb k) (s.srb k)
      (fun b => s.sx b k) (fun b => s.sx b k) (fun b => s.fx b k)
      (fun b => s.fx b k) (fun b => s.gx b k) (fun b => s.gx b k)
      (fun b => (ccmppRun s k).population b k)
      (ccmpp_leslie (fun b => s.population b 0) s.sx s.fx s.gx s.srb
        s.age_span s.fx_idx s.n_ages s.n_fx k)
      (fun b _ => rfl) (fun j _ => rfl) (fun b _ => rfl)
      (fun b hb => ih b hb) rfl (by omega) (by omega) a ha

lemma init_population_col0 (n_ages n_steps n_fx fx_idx : ℕ) (age_span : ℚ)
    (basepop : ℕ → ℚ) (sx fx gx : ℕ → ℕ → ℚ) (srb : ℕ → ℚ) :
    (fun b => (PopulationProjection.init n_ages n_steps n_fx fx_idx age_span
      basepop sx fx gx srb).population b 0) = basepop := by
  funext b
  show (if (0 : ℕ) = 0 then basepop b else 0) = basepop b
  rw [if_pos rfl]

lemma init_sx (n_ages n_steps n_fx fx_idx : ℕ) (age_span : ℚ)
    (basepop : ℕ → ℚ) (sx fx gx : ℕ → ℕ → ℚ) (srb : ℕ → ℚ) :
    (PopulationProjection.init n_ages n_steps n_fx fx_idx age_span
      basepop sx fx gx srb).sx = sx := rfl

lemma init_fx (n_ages n_steps n_fx fx_idx : ℕ) (age_span : ℚ)
    (basepop : ℕ → ℚ) (sx fx gx : ℕ → ℕ → ℚ) (srb : ℕ → ℚ) :
    (PopulationProjection.init n_ages n_steps n_fx fx_idx age_span
      basepop sx fx gx srb).fx = fx := rfl

lemma init_gx (n_ages n_steps n_fx fx_idx : ℕ) (age_span : ℚ)
    (basepop : ℕ → ℚ) (sx fx gx : ℕ → ℕ → ℚ) (srb : ℕ → ℚ) :
    (PopulationProjection.init n_ages n_steps n_fx fx_idx age_span
      basepop sx fx gx srb).gx = gx := rfl

lemma init_srb (n_ages n_steps n_fx fx_idx : ℕ) (age_span : ℚ)
    (basepop : ℕ → ℚ) (sx fx gx : ℕ → ℕ → ℚ) (srb : ℕ → ℚ) :
    (PopulationProjection.init n_ages n_steps n_fx fx_idx age_span
      basepop sx fx gx srb).srb = srb := rfl

lemma init_n_ages (n_ages n_steps n_fx fx_idx : ℕ) (age_span : ℚ)
    (basepop : ℕ → ℚ) (sx fx gx : ℕ → ℕ → ℚ) (srb : ℕ → ℚ) :
    (PopulationProjection.init n_ages n_steps n_fx fx_idx age_span
      basepop sx fx gx srb).n_ages = n_ages := rfl

lemma init_n_fx (n_ages n_steps n_fx fx_idx : ℕ) (age_span : ℚ)
    (basepop : ℕ → ℚ) (sx fx gx : ℕ → ℕ → ℚ) (srb : ℕ → ℚ) :
    (PopulationProjection.init n_ages n_steps n_fx fx_idx age_span
      basepop sx fx gx srb).n_fx = n_fx := rfl

lemma init_fx_idx (n_ages n_steps n_fx fx_idx : ℕ) (age_span : ℚ)
    (basepop : ℕ → ℚ) (sx fx gx : ℕ → ℕ → ℚ) (srb : ℕ → ℚ) :
    (PopulationProjection.init n_ages n_steps n_fx fx_idx age_span
      basepop sx fx gx srb).fx_idx = fx_idx := rfl

lemma init_age_span (n_ages n_steps n_fx fx_idx : ℕ) (age_span : ℚ)
    (basepop : ℕ → ℚ) (sx fx gx : ℕ → ℕ → ℚ) (srb : ℕ → ℚ) :
    (PopulationProjection.init n_ages n_steps n_fx fx_idx age_span
      basepop sx fx gx srb).age_span = age_span := rfl

/-- C1 counterexample: the claim as stated fails when the fertile window
reaches the open age group (`fx_idx + n_fx - 1 = n_ages - 1`).  With
`n_ages = 2`, `basepop = [1, 1]`, `sx ≡ 1`, `fx = [1]`, `fx_idx = 1`,
`n_fx = 1`, `gx ≡ 0`, `srb = 0`, `age_span = 1` and one step — an input
satisfying every stated precondition (`n_ages ≥ 2`, `1 ≤ fx_idx`,
`fx_idx + n_fx - 1 ≤ n_ages - 1`, `srb > -1`) — the total population of
column 1 of `ccmpp_leslie` is `3` while the total of population column 1 of
`ccmpp` is `7/2`. -/
theorem C1_counterexample :
    (2 : ℕ) ≤ 2 ∧ (1 : ℕ) ≤ 1 ∧ (1 + 1 - 1 : ℕ) ≤ 2 - 1 ∧ (-1 : ℚ) < 0 ∧
    (∑ a ∈ Finset.range 2,
        ccmpp_leslie (fun _ => 1) (fun _ _ => 1) (fun _ _ => 1) (fun _ _ => 0)
          (fun _ => 0) 1 1 2 1 1 a) = 3 ∧
    (∑ a ∈ Finset.range 2,
        (ccmpp (fun _ => 1) (fun _ _ => 1) (fun _ _ => 1) (fun _ _ => 0)
          (fun _ => 0) 1 1 2 1 1).population a 1) = 7/2 ∧
    ¬((∑ a ∈ Finset.range 2,
        (ccmpp (fun _ => 1) (fun _ _ => 1) (fun _ _ => 1) (fun _ _ => 0)
          (fun _ => 0) 1 1 2 1 1).population a 1)
      = ∑ a ∈ Finset.range 2,
          ccmpp_leslie (fun _ => 1) (fun _ _ => 1) (fun _ _ => 1) (fun _ _ => 0)
            (fun _ => 0) 1 1 2 1 1 a) := by
  have hles : (∑ a ∈ Finset.range 2,
      ccmpp_leslie (fun _ => 1) (fun _ _ => 1) (fun _ _ => 1) (fun _ _ => 0)
        (fun _ => 0) 1 1 2 1 1 a) = 3 := by
    norm_num [ccmpp_leslie, leslieStep, matVec, make_leslie_matrix,
      make_leslie_matrixWith, leslieTriplesWith, fert_leslie, fert_leslieWith,
      fert_k, Finset.sum_range_succ, List.filter_cons, List.range_succ]
  have hdir : (∑ a ∈ Finset.range 2,
      (ccmpp (fun _ => 1) (fun _ _ => 1) (fun _ _ => 1) (fun _ _ => 0)
        (fun _ => 0) 1 1 2 1 1).population a 1) = 7/2 := by
    norm_num [ccmpp, ccmppRun, step_projection, PopulationProjection.init,
      Step.working4, Step.working3, Step.working2, Step.working1, Step.migrants,
      Step.deathsUpper, Step.openAgeSurvivors, Step.infantsVal, Step.deaths0,
      Step.birthsCol, Step.births1, Step.births2, Finset.sum_range_succ]
  refine ⟨le_refl 2, le_refl 1, by norm_num, by norm_num, hles, hdir, ?_⟩
  rw [hles, hdir]
  norm_num

/-- C1 (amended): for every input with consistent shapes and `n_ages ≥ 2`,
`1 ≤ fx_idx`, every `srb` entry `> -1`, and the fertile window excluding the
open age group (`fx_idx + n_fx - 1 ≤ n_ages - 2` instead of the claimed
`≤ n_ages - 1`), for every step `k ≤ n_steps` the total population of column
`k` of the matrix returned by `ccmpp_leslie` equals (exactly, over `ℚ`) the
total population of column `k` of the population table of the
`PopulationProjection` returned by `ccmpp`. -/
theorem C1_paths_total_equiv (basepop : ℕ → ℚ) (sx fx gx : ℕ → ℕ → ℚ)
    (srb : ℕ → ℚ) (age_span : ℚ) (fx_idx n_ages n_fx n_steps : ℕ)
    (hn : 2 ≤ n_ages) (hfx1 : 1 ≤ fx_idx)
    (hfx2 : fx_idx + n_fx - 1 ≤ n_ages - 2)
    (hsrb : ∀ j, j < n_steps → -1 < srb j)
    (k : ℕ) (hk : k ≤ n_steps) :
    (∑ a ∈ Finset.range n_ages,
        (ccmpp basepop sx fx gx srb age_span fx_idx n_ages n_fx
          n_steps).population a k)
      = ∑ a ∈ Finset.range n_ages,
          ccmpp_leslie basepop sx fx gx srb age_span fx_idx n_ages n_fx k a := by
  refine Finset.sum_congr rfl fun a ha => ?_
  have ha2 := Finset.mem_range.mp ha
  unfold ccmpp
  rw [ccmppRun_population_stable _ a k n_steps hk]
  have h := ccmppRun_population_eq_leslie
    (PopulationProjection.init n_ages n_steps n_fx fx_idx age_span basepop
      sx fx gx srb)
    hn hfx1 (show fx_idx + n_fx ≤ n_ages - 1 by omega) k a ha2
  rw [init_population_col0, init_sx, init_fx, init_gx, init_srb, init_n_ages,
    init_n_fx, init_fx_idx, init_age_span] at h
  exact h

/-- C1 witness: the amended equivalence instantiated on a concrete admissible
input (`n_ages = 3`, `fx_idx = 1`, `n_fx = 1`, one step, constant tables). -/
theorem C1_paths_total_equiv_witness :
    (2 : ℕ) ≤ 3 ∧ (1 + 1 - 1 : ℕ) ≤ 3 - 2 ∧
    (∑ a ∈ Finset.range 3,
        (ccmpp (fun _ => 1) (fun _ _ => 1) (fun _ _ => 1) (fun _ _ => 0)
          (fun _ => 0) 1 1 3 1 1).population a 1)
      = ∑ a ∈ Finset.range 3,
          ccmpp_leslie (fun _ => 1) (fun _ _ => 1) (fun _ _ => 1) (fun _ _ => 0)
            (fun _ => 0) 1 1 3 1 1 a :=
  ⟨by norm_num, by norm_num,
    C1_paths_total_equiv (fun _ => 1) (fun _ _ => 1) (fun _ _ => 1)
      (fun _ _ => 0) (fun _ => 0) 1 1 3 1 1 (by norm_num) (le_refl 1)
      (by norm_num) (fun j _ => by norm_num) 1 (le_refl 1)⟩

/-! ### Conservation of persons in a closed population -/

lemma step_conservation (n n_fx fx_idx : ℕ) (age_span srb : ℚ)
    (sx fx gx pop : ℕ → ℚ) (hn : 2 ≤ n) (hg : ∀ a, a < n → gx a = 0) :
    (∑ a ∈ Finset.range n,
        Step.working4 n n_fx age_span sx fx gx pop fx_idx srb a)
      + (∑ a ∈ Finset.range (n + 1),
          if a = 0 then Step.deaths0 n n_fx age_span sx fx gx pop fx_idx srb
          else Step.deathsUpper sx gx pop a)
      = (∑ a ∈ Finset.range n, pop a)
        + Step.infantsVal n n_fx age_span sx fx gx pop fx_idx srb := by
  obtain ⟨m, rfl⟩ : ∃ m, n = m + 2 := ⟨n - 2, by omega⟩
  have hw1 : ∀ b, b < m + 2 → Step.working1 gx pop b = pop b := by
    intro b hb
    unfold Step.working1 Step.migrants
    rw [hg b hb]
    ring
  have hw4 : ∀ a, a < m + 2 →
      Step.working4 (m + 2) n_fx age_span sx fx gx pop fx_idx srb a
        = Step.working3 (m + 2) n_fx age_span sx fx gx pop fx_idx srb a := by
    intro a ha
    unfold Step.working4 Step.migrants
    rw [hg a ha]
    ring
  rw [Finset.sum_congr rfl (fun a ha => hw4 a (Finset.mem_range.mp ha))]
  have h30 : Step.working3 (m + 2) n_fx age_span sx fx gx pop fx_idx srb 0
      = Step.infantsVal (m + 2) n_fx age_span sx fx gx pop fx_idx srb
        - Step.deaths0 (m + 2) n_fx age_span sx fx gx pop fx_idx srb := by
    unfold Step.working3
    rw [if_pos rfl]
  have h3s : ∀ i, i < m + 1 →
      Step.working3 (m + 2) n_fx age_span sx fx gx pop fx_idx srb (i + 1)
        = (pop i - Step.deathsUpper sx gx pop (i + 1))
          + (if i = m then pop (m + 1) - Step.deathsUpper sx gx pop (m + 2)
              else 0) := by
    intro i hi
    unfold Step.working3 Step.working2 Step.openAgeSurvivors
    have hne : ¬(i + 1 = 0) := by omega
    rw [if_neg hne, if_pos (show 1 ≤ i + 1 ∧ i + 1 ≤ m + 2 - 1 by omega)]
    have e1 : i + 1 - 1 = i := by omega
    rw [e1, hw1 i (by omega)]
    by_cases him : i = m
    · rw [him]
      rw [if_pos (show m + 1 = m + 2 - 1 by omega), if_pos rfl]
      have e2 : m + 2 - 1 = m + 1 := by omega
      rw [e2, hw1 (m + 1) (by omega)]
    · rw [if_neg (show ¬(i + 1 = m + 2 - 1) by omega), if_neg him]
  rw [Finset.sum_range_succ'
      (fun a => Step.working3 (m + 2) n_fx age_span sx fx gx pop fx_idx srb a)
      (m + 1),
    Finset.sum_congr rfl (fun i hi => h3s i (Finset.mem_range.mp hi)), h30,
    Finset.sum_add_distrib, Finset.sum_sub_distrib,
    Finset.sum_ite_eq' (Finset.range (m + 1)) m
      (fun _ => pop (m + 1) - Step.deathsUpper sx gx pop (m + 2)),
    if_pos (Finset.mem_range.mpr (by omega))]
  have hdsum : (∑ a ∈ Finset.range (m + 2 + 1),
      if a = 0 then Step.deaths0 (m + 2) n_fx age_span sx fx gx pop fx_idx srb
      else Step.deathsUpper sx gx pop a)
        = (∑ i ∈ Finset.range (m + 1), Step.deathsUpper sx gx pop (i + 1))
          + Step.deathsUpper sx gx pop (m + 2)
          + Step.deaths0 (m + 2) n_fx age_span sx fx gx pop fx_idx srb := by
    rw [Finset.sum_range_succ'
        (fun a => if a = 0 then
            Step.deaths0 (m + 2) n_fx age_span sx fx gx pop fx_idx srb
          else Step.deathsUpper sx gx pop a) (m + 2)]
    have hstep : ∀ i ∈ Finset.range (m + 2),
        (if i + 1 = 0 then
            Step.deaths0 (m + 2) n_fx age_span sx fx gx pop fx_idx srb
          else Step.deathsUpper sx gx pop (i + 1))
          = Step.deathsUpper sx gx pop (i + 1) := by
      intro i _
      rw [if_neg (show ¬(i + 1 = 0) by omega)]
    rw [Finset.sum_congr rfl hstep, if_pos rfl, Finset.sum_range_succ]
  rw [hdsum, show (∑ a ∈ Finset.range (m + 2), pop a)
      = (∑ a ∈ Finset.range (m + 1), pop a) + pop (m + 1)
    from Finset.sum_range_succ pop (m + 1)]
  ring

/-- C2: closed-population conservation.  For a projection container with
`n_ages ≥ 2` whose migration column `k` is identically zero, after
`step_projection k` the total of population column `k+1` plus the total of
deaths column `k` (indices `0..n_ages`) equals the total of population
column `k` plus `infants[k]`. -/
theorem C2_closed_population_conservation (s : PopulationProjection) (k : ℕ)
    (hn : 2 ≤ s.n_ages) (hg : ∀ a, a < s.n_ages → s.gx a k = 0) :
    (∑ a ∈ Finset.range s.n_ages, (step_projection s k).population a (k + 1))
      + (∑ a ∈ Finset.range (s.n_ages + 1), (step_projection s k).deaths a k)
      = (∑ a ∈ Finset.range s.n_ages, s.population a k)
        + (step_projection s k).infants k := by
  rw [Finset.sum_congr rfl (fun a ha =>
      step_projection_population_write s k a (Finset.mem_range.mp ha)),
    Finset.sum_congr rfl (fun a ha =>
      step_projection_deaths_write s k a (Finset.mem_range.mp ha)),
    step_projection_infants_write s k]
  exact step_conservation s.n_ages s.n_fx s.fx_idx s.age_span (s.srb k)
    (fun b => s.sx b k) (fun b => s.fx b k) (fun b => s.gx b k)
    (fun b => s.population b k) hn hg

/-- C2 witness: the conservation identity on the concrete sample container
(`n_ages = 3`, `gx ≡ 0`) at step `0`. -/
theorem C2_closed_population_conservation_witness :
    (2 : ℕ) ≤ 3 ∧
    (∑ a ∈ Finset.range 3, (step_projection sampleState 0).population a 1)
      + (∑ a ∈ Finset.range 4, (step_projection sampleState 0).deaths a 0)
      = (∑ a ∈ Finset.range 3, sampleState.population a 0)
        + (step_projection sampleState 0).infants 0 :=
  ⟨by norm_num,
    C2_closed_population_conservation sampleState 0 (by decide)
      (fun a _ => rfl)⟩

/-- C3: Leslie matrix structure.  Under the shape preconditions
(`n_ages ≥ 2`, `1 ≤ fx_idx`, `fx_idx + n_fx - 1 ≤ n_ages - 1`, `srb ≠ -1`),
the matrix built by `make_leslie_matrix` has sub-diagonal entries
`(i, i-1) = sx i` for `i = 1..n_ages-1`, terminal entry
`(n_ages-1, n_ages-1) = sx n_ages`, every entry outside
the sub-diagonal, the terminal entry and the top-row fertility band
`(0, fx_idx-1 .. fx_idx+n_fx-1)` is zero, every band entry of the top row is
a multiple of `fert_k`, and every column holds at most `2` non-zero
entries. -/
theorem C3_leslie_structure (sx fx : ℕ → ℚ) (n_ages n_fx : ℕ)
    (srb age_span : ℚ) (fx_idx : ℕ) (hn : 2 ≤ n_ages) (hfx1 : 1 ≤ fx_idx)
    (hfx2 : fx_idx + n_fx - 1 ≤ n_ages - 1) (hsrb : srb ≠ -1) :
    (∀ i, 1 ≤ i → i ≤ n_ages - 1 →
        make_leslie_matrix sx fx n_ages n_fx srb age_span fx_idx i (i - 1)
          = sx i)
    ∧ make_leslie_matrix sx fx n_ages n_fx srb age_span fx_idx
        (n_ages - 1) (n_ages - 1) = sx n_ages
    ∧ (∀ r c,
        ¬(1 ≤ r ∧ r ≤ n_ages - 1 ∧ c = r - 1) →
        ¬(r = n_ages - 1 ∧ c = n_ages - 1) →
        ¬(r = 0 ∧ fx_idx - 1 ≤ c ∧ c ≤ fx_idx + n_fx - 1) →
        make_leslie_matrix sx fx n_ages n_fx srb age_span fx_idx r c = 0)
    ∧ (∀ c, fx_idx - 1 ≤ c → c ≤ fx_idx + n_fx - 1 →
        ∃ t, make_leslie_matrix sx fx n_ages n_fx srb age_span fx_idx 0 c
          = fert_k sx srb age_span * t)
    ∧ (∀ c, ((Finset.range n_ages).filter
        (fun r =>
          make_leslie_matrix sx fx n_ages n_fx srb age_span fx_idx r c ≠ 0)).card
        ≤ 2) := by
  have hM := make_leslie_matrix_apply sx fx n_ages n_fx srb age_span fx_idx hfx1
  refine ⟨?_, ?_, ?_, ?_, ?_⟩
  · intro i h1 h2
    rw [hM,
      if_neg (show ¬(i = 0 ∧ fx_idx - 1 ≤ i - 1 ∧ i - 1 < fx_idx + n_fx)
        by omega),
      if_pos ⟨h1, h2, rfl⟩,
      if_neg (show ¬(i = n_ages - 1 ∧ i - 1 = n_ages - 1) by omega),
      zero_add, add_zero]
  · rw [hM,
      if_neg (show ¬(n_ages - 1 = 0 ∧ fx_idx - 1 ≤ n_ages - 1 ∧
        n_ages - 1 < fx_idx + n_fx) by omega),
      if_neg (show ¬(1 ≤ n_ages - 1 ∧ n_ages - 1 ≤ n_ages - 1 ∧
        n_ages - 1 = n_ages - 1 - 1) by omega),
      if_pos ⟨rfl, rfl⟩, zero_add, zero_add]
  · intro r c h1 h2 h3
    rw [hM,
      if_neg (show ¬(r = 0 ∧ fx_idx - 1 ≤ c ∧ c < fx_idx + n_fx) by omega),
      if_neg h1, if_neg h2, add_zero, add_zero]
  · intro c hc1 hc2
    rw [hM,
      if_pos (show (0 : ℕ) = 0 ∧ fx_idx - 1 ≤ c ∧ c < fx_idx + n_fx
        by omega),
      if_neg (show ¬(1 ≤ (0 : ℕ) ∧ 0 ≤ n_ages - 1 ∧ c = 0 - 1) by omega),
      if_neg (show ¬((0 : ℕ) = n_ages - 1 ∧ c = n_ages - 1) by omega),
      add_zero, add_zero]
    refine ⟨(if c - (fx_idx - 1) < n_fx then
        fx (c - (fx_idx - 1)) * sx (fx_idx + (c - (fx_idx - 1))) else 0)
      + (if 1 ≤ c - (fx_idx - 1) then fx (c - (fx_idx - 1) - 1) else 0), ?_⟩
    unfold fert_leslie fert_leslieWith
    ring
  · intro c
    by_cases hc : c = n_ages - 1
    · refine le_trans (Finset.card_le_card (s := (Finset.range n_ages).filter
        (fun r =>
          make_leslie_matrix sx fx n_ages n_fx srb age_span fx_idx r c ≠ 0))
        (t := insert 0 {n_ages - 1}) ?_) ?_
      · intro r hr
        rw [Finset.mem_filter] at hr
        rw [Finset.mem_insert, Finset.mem_singleton]
        by_contra hno
        push_neg at hno
        apply hr.2
        rw [hM,
          if_neg (show ¬(r = 0 ∧ fx_idx - 1 ≤ c ∧ c < fx_idx + n_fx)
            by omega),
          if_neg (show ¬(1 ≤ r ∧ r ≤ n_ages - 1 ∧ c = r - 1) by omega),
          if_neg (show ¬(r = n_ages - 1 ∧ c = n_ages - 1) by omega),
          add_zero, add_zero]
      · refine le_trans (Finset.card_insert_le 0 {n_ages - 1}) ?_
        rw [Finset.card_singleton]
    · refine le_trans (Finset.card_le_card (s := (Finset.range n_ages).filter
        (fun r =>
          make_leslie_matrix sx fx n_ages n_fx srb age_span fx_idx r c ≠ 0))
        (t := insert 0 {c + 1}) ?_) ?_
      · intro r hr
        rw [Finset.mem_filter] at hr
        rw [Finset.mem_insert, Finset.mem_singleton]
        by_contra hno
        push_neg at hno
        apply hr.2
        rw [hM,
          if_neg (show ¬(r = 0 ∧ fx_idx - 1 ≤ c ∧ c < fx_idx + n_fx)
            by omega),
          if_neg (show ¬(1 ≤ r ∧ r ≤ n_ages - 1 ∧ c = r - 1) by omega),
          if_neg (show ¬(r = n_ages - 1 ∧ c = n_ages - 1) by omega),
          add_zero, add_zero]
      · refine le_trans (Finset.card_insert_le 0 {c + 1}) ?_
        rw [Finset.card_singleton]

/-- C3 witness: the structure theorem instantiated at `n_ages = 3`,
`n_fx = 1`, `fx_idx = 1`, `sx ≡ 1`, `fx ≡ 1`, `srb = 0`, `age_span = 1`;
the sub-diagonal entry `(1, 0)` of the resulting matrix equals `sx 1 = 1`. -/
theorem C3_leslie_structure_witness :
    (2 : ℕ) ≤ 3 ∧ (1 : ℕ) ≤ 1 ∧ (1 + 1 - 1 : ℕ) ≤ 3 - 1 ∧ ((0 : ℚ) ≠ -1) ∧
    make_leslie_matrix (fun _ => 1) (fun _ => 1) 3 1 0 1 1 1 0 = 1 := by
  refine ⟨by norm_num, le_refl 1, by norm_num, by norm_num, ?_⟩
  have h := (C3_leslie_structure (fun _ => 1) (fun _ => 1) 3 1 0 1 1
    (by norm_num) (le_refl 1) (by norm_num) (by norm_num)).1 1 (le_refl 1)
    (by norm_num)
  simpa using h

/-- C10: exact form of the fertility top row.  For `i ≤ n_fx` the top-row
entry at column `fx_idx - 1 + i` equals
`fert_k * ((if i < n_fx then fx i * sx (fx_idx + i) else 0) +
(if 0 < i then fx (i-1) else 0))` with
`fert_k = sx 0 * 0.5 * age_span / (1 + srb)`: the first blend term carries
the fertile-age survivorship factor, the second does not. -/
theorem C10_fertility_top_row (sx fx : ℕ → ℚ) (n_ages n_fx : ℕ)
    (srb age_span : ℚ) (fx_idx : ℕ) (hn : 2 ≤ n_ages) (hfx1 : 1 ≤ fx_idx)
    (hfx2 : fx_idx + n_fx - 1 ≤ n_ages - 1) (i : ℕ) (hi : i ≤ n_fx) :
    make_leslie_matrix sx fx n_ages n_fx srb age_span fx_idx 0 (fx_idx - 1 + i)
      = fert_k sx srb age_span *
          ((if i < n_fx then fx i * sx (fx_idx + i) else 0)
            + (if 0 < i then fx (i - 1) else 0)) := by
  rw [make_leslie_matrix_apply sx fx n_ages n_fx srb age_span fx_idx hfx1,
    if_pos (show (0 : ℕ) = 0 ∧ fx_idx - 1 ≤ fx_idx - 1 + i ∧
      fx_idx - 1 + i < fx_idx + n_fx by omega),
    if_neg (show ¬(1 ≤ (0 : ℕ) ∧ 0 ≤ n_ages - 1 ∧ fx_idx - 1 + i = 0 - 1)
      by omega),
    if_neg (show ¬((0 : ℕ) = n_ages - 1 ∧ fx_idx - 1 + i = n_ages - 1)
      by omega),
    add_zero, add_zero]
  have e : fx_idx - 1 + i - (fx_idx - 1) = i := by omega
  rw [e]
  unfold fert_leslie fert_leslieWith
  rw [if_congr (show (1 ≤ i) ↔ (0 < i) by omega) rfl rfl]
  ring

/-- C10 witness: the top-row formula instantiated at `n_ages = 3`,
`n_fx = 1`, `fx_idx = 1`, `sx ≡ 1`, `fx ≡ 1`, `srb = 0`, `age_span = 1`,
`i = 0`. -/
theorem C10_fertility_top_row_witness :
    (2 : ℕ) ≤ 3 ∧ (0 : ℕ) ≤ 1 ∧
    make_leslie_matrix (fun _ => 1) (fun _ => 1) 3 1 0 1 1 0 0
      = fert_k (fun _ => 1) 0 1 *
          ((if 0 < 1 then (1 : ℚ) * 1 else 0) + (if 0 < 0 then (1 : ℚ) else 0)) := by
  refine ⟨by norm_num, by norm_num, ?_⟩
  have h := C10_fertility_top_row (fun _ => 1) (fun _ => 1) 3 1 0 1 1
    (by norm_num) (le_refl 1) (by norm_num) 0 (by norm_num)
  simpa using h

/-- C4: open-age-group accumulation.  For `n_ages ≥ 2`, writing `w` for the
previous population column plus half the step's recorded migrants, the new
oldest population entry equals
`(w (n_ages-2) - deaths (n_ages-1)) + (w (n_ages-1) - deaths n_ages)
+ 0.5 * migrations (n_ages-1)`: the open age group receives the aged-up
survivors of the next-oldest group plus its own survivors. -/
theorem C4_open_age_accumulation (s : PopulationProjection) (k : ℕ)
    (hn : 2 ≤ s.n_ages) :
    (step_projection s k).population (s.n_ages - 1) (k + 1)
      = ((s.population (s.n_ages - 2) k
            + (1/2) * (step_projection s k).migrations (s.n_ages - 2) k)
          - (step_projection s k).deaths (s.n_ages - 1) k)
        + ((s.population (s.n_ages - 1) k
            + (1/2) * (step_projection s k).migrations (s.n_ages - 1) k)
          - (step_projection s k).deaths s.n_ages k)
        + (1/2) * (step_projection s k).migrations (s.n_ages - 1) k := by
  rw [step_projection_population_write s k (s.n_ages - 1) (by omega),
    step_projection_migrations_write s k (s.n_ages - 2) (by omega),
    step_projection_migrations_write s k (s.n_ages - 1) (by omega),
    step_projection_deaths_write s k (s.n_ages - 1) (by omega),
    step_projection_deaths_write s k s.n_ages (by omega),
    if_neg (show ¬(s.n_ages - 1 = 0) by omega),
    if_neg (show ¬(s.n_ages = 0) by omega)]
  simp only [Step.working4, Step.working3, Step.working2, Step.openAgeSurvivors,
    Step.deathsUpper, Step.working1, Step.migrants]
  rw [if_neg (show ¬(s.n_ages - 1 = 0) by omega),
    if_pos (show 1 ≤ s.n_ages - 1 ∧ s.n_ages - 1 ≤ s.n_ages - 1 by omega),
    if_pos trivial]
  have e : s.n_ages - 1 - 1 = s.n_ages - 2 := by omega
  rw [e]

/-- C4 witness: the open-age accumulation identity on the concrete sample
container (`n_ages = 3`) at step `0`. -/
theorem C4_open_age_accumulation_witness :
    (2 : ℕ) ≤ 3 ∧
    (step_projection sampleState 0).population 2 1
      = ((sampleState.population 1 0
            + (1/2) * (step_projection sampleState 0).migrations 1 0)
          - (step_projection sampleState 0).deaths 2 0)
        + ((sampleState.population 2 0
            + (1/2) * (step_projection sampleState 0).migrations 2 0)
          - (step_projection sampleState 0).deaths 3 0)
        + (1/2) * (step_projection sampleState 0).migrations 2 0 :=
  ⟨by norm_num, C4_open_age_accumulation sampleState 0 (by decide)⟩

/-- C5: boundary scenario.  With `n_ages = 3`, `basepop = [100, 100, 100]`,
`sx ≡ 1`, `fx = [0]` with `fx_idx = 1` and `n_fx = 1`, `gx ≡ 0`, `srb = 0`,
`age_span = 1` and one projection step, the population column after the step
is exactly `[0, 100, 200]`. -/
theorem C5_boundary_scenario :
    (ccmpp (fun _ => 100) (fun _ _ => 1) (fun _ _ => 0) (fun _ _ => 0)
        (fun _ => 0) 1 1 3 1 1).population 0 1 = 0
    ∧ (ccmpp (fun _ => 100) (fun _ _ => 1) (fun _ _ => 0) (fun _ _ => 0)
        (fun _ => 0) 1 1 3 1 1).population 1 1 = 100
    ∧ (ccmpp (fun _ => 100) (fun _ _ => 1) (fun _ _ => 0) (fun _ _ => 0)
        (fun _ => 0) 1 1 3 1 1).population 2 1 = 200 := by
  refine ⟨?_, ?_, ?_⟩ <;>
    norm_num [ccmpp, ccmppRun, step_projection, PopulationProjection.init,
      Step.working4, Step.working3, Step.working2, Step.working1, Step.migrants,
      Step.deathsUpper, Step.openAgeSurvivors, Step.infantsVal, Step.deaths0,
      Step.birthsCol, Step.births1, Step.births2, Finset.sum_range_succ]

/-- C6: infant accounting.  For any container with `n_ages ≥ 1` and
`srb[k] ≠ -1`, after `step_projection k` the stored `infants[k]` equals the
sum of the stored births column `k` divided by `1 + srb[k]`, the stored
`deaths[0][k]` equals `infants[k] * (1 - sx[0][k])`, and the age-0 entry of
population column `k+1` equals `infants[k] - deaths[0][k]` (equivalently
`infants[k] * sx[0][k]`) plus `0.5 * migrations[0][k]`. -/
theorem C6_infant_accounting (s : PopulationProjection) (k : ℕ)
    (hn : 1 ≤ s.n_ages) (hsrb : s.srb k ≠ -1) :
    (step_projection s k).infants k
        = (∑ i ∈ Finset.range s.n_fx, (step_projection s k).births i k)
            / (1 + s.srb k)
      ∧ (step_projection s k).deaths 0 k
          = (step_projection s k).infants k * (1 - s.sx 0 k)
      ∧ (step_projection s k).population 0 (k + 1)
          = ((step_projection s k).infants k - (step_projection s k).deaths 0 k)
            + (1/2) * (step_projection s k).migrations 0 k
      ∧ (step_projection s k).population 0 (k + 1)
          = (step_projection s k).infants k * s.sx 0 k
            + (1/2) * (step_projection s k).migrations 0 k := by
  have hb : (∑ i ∈ Finset.range s.n_fx, (step_projection s k).births i k)
      = ∑ i ∈ Finset.range s.n_fx,
          Step.birthsCol s.n_ages s.age_span (fun b => s.sx b k)
            (fun b => s.fx b k) (fun b => s.gx b k) (fun b => s.population b k)
            s.fx_idx i :=
    Finset.sum_congr rfl fun i hi =>
      step_projection_births_write s k i (Finset.mem_range.mp hi)
  refine ⟨?_, ?_, ?_, ?_⟩
  · rw [step_projection_infants_write s k, hb]
    rfl
  · rw [step_projection_deaths_write s k 0 (by omega), if_pos rfl,
      step_projection_infants_write s k]
    rfl
  · rw [step_projection_population_write s k 0 hn,
      step_projection_infants_write s k,
      step_projection_deaths_write s k 0 (by omega), if_pos rfl,
      step_projection_migrations_write s k 0 hn]
    rfl
  · rw [step_projection_population_write s k 0 hn,
      step_projection_infants_write s k,
      step_projection_migrations_write s k 0 hn]
    simp only [Step.working4, Step.working3, Step.deaths0]
    rw [if_pos trivial]
    ring

/-- C6 witness: the infant-accounting identities on the concrete sample
container at step `0`. -/
theorem C6_infant_accounting_witness :
    (1 : ℕ) ≤ 3 ∧ ((0 : ℚ) ≠ -1) ∧
    ((step_projection sampleState 0).infants 0
        = (∑ i ∈ Finset.range 1, (step_projection sampleState 0).births i 0)
            / (1 + 0)
      ∧ (step_projection sampleState 0).deaths 0 0
          = (step_projection sampleState 0).infants 0 * (1 - 1)
      ∧ (step_projection sampleState 0).population 0 1
          = ((step_projection sampleState 0).infants 0
              - (step_projection sampleState 0).deaths 0 0)
            + (1/2) * (step_projection sampleState 0).migrations 0 0
      ∧ (step_projection sampleState 0).population 0 1
          = (step_projection sampleState 0).infants 0 * 1
            + (1/2) * (step_projection sampleState 0).migrations 0 0) :=
  ⟨by norm_num, by norm_num,
    C6_infant_accounting sampleState 0 (by decide) (by norm_num [sampleState,
      PopulationProjection.init])⟩

/-! ### Zero fertility -/

lemma birthsCol_zero (n : ℕ) (age_span : ℚ) (sx fx gx pop : ℕ → ℚ)
    (fx_idx i : ℕ) (hfx : fx i = 0) :
    Step.birthsCol n age_span sx fx gx pop fx_idx i = 0 := by
  unfold Step.birthsCol Step.births1 Step.births2
  rw [hfx]
  ring

lemma infantsVal_zero (n n_fx : ℕ) (age_span srb : ℚ) (sx fx gx pop : ℕ → ℚ)
    (fx_idx : ℕ) (hfx : ∀ i, i < n_fx → fx i = 0) :
    Step.infantsVal n n_fx age_span sx fx gx pop fx_idx srb = 0 := by
  unfold Step.infantsVal
  rw [Finset.sum_eq_zero (fun i hi =>
      birthsCol_zero n age_span sx fx gx pop fx_idx i
        (hfx i (Finset.mem_range.mp hi))),
    zero_div]

lemma step_projection_zero_fertility (s : PopulationProjection) (k : ℕ)
    (hn : 1 ≤ s.n_ages) (hfx0 : ∀ i, i < s.n_fx → s.fx i k = 0) :
    (∀ i, i < s.n_fx → (step_projection s k).births i k = 0)
    ∧ (step_projection s k).infants k = 0
    ∧ (step_projection s k).deaths 0 k = 0
    ∧ (step_projection s k).population 0 (k + 1)
        = (1/2) * (step_projection s k).migrations 0 k := by
  have hinf : Step.infantsVal s.n_ages s.n_fx s.age_span (fun b => s.sx b k)
      (fun b => s.fx b k) (fun b => s.gx b k) (fun b => s.population b k)
      s.fx_idx (s.srb k) = 0 :=
    infantsVal_zero s.n_ages s.n_fx s.age_span (s.srb k) (fun b => s.sx b k)
      (fun b => s.fx b k) (fun b => s.gx b k) (fun b => s.population b k)
      s.fx_idx (fun i hi => hfx0 i hi)
  refine ⟨?_, ?_, ?_, ?_⟩
  · intro i hi
    rw [step_projection_births_write s k i hi]
    exact birthsCol_zero s.n_ages s.age_span (fun b => s.sx b k)
      (fun b => s.fx b k) (fun b => s.gx b k) (fun b => s.population b k)
      s.fx_idx i (hfx0 i hi)
  · rw [step_projection_infants_write s k]
    exact hinf
  · rw [step_projection_deaths_write s k 0 (by omega), if_pos rfl]
    unfold Step.deaths0
    rw [hinf, zero_mul]
  · rw [step_projection_population_write s k 0 hn,
      step_projection_migrations_write s k 0 hn]
    unfold Step.working4 Step.working3 Step.deaths0
    rw [if_pos rfl, hinf]
    ring

/-- C7: zero-fertility stability.  If every entry of the fertility table is
zero, then in the container returned by `ccmpp` every births column and every
`infants[k]` is zero, every `deaths[0][k]` is zero, and the age-0 entry of
population column `k+1` equals exactly `0.5 * migrations[0][k]`. -/
theorem C7_zero_fertility (basepop : ℕ → ℚ) (sx fx gx : ℕ → ℕ → ℚ)
    (srb : ℕ → ℚ) (age_span : ℚ) (fx_idx n_ages n_fx n_steps : ℕ)
    (hn : 1 ≤ n_ages)
    (hfx0 : ∀ i, i < n_fx → ∀ j, j < n_steps → fx i j = 0)
    (k : ℕ) (hk : k < n_steps) :
    (∀ i, i < n_fx →
        (ccmpp basepop sx fx gx srb age_span fx_idx n_ages n_fx
          n_steps).births i k = 0)
    ∧ (ccmpp basepop sx fx gx srb age_span fx_idx n_ages n_fx
        n_steps).infants k = 0
    ∧ (ccmpp basepop sx fx gx srb age_span fx_idx n_ages n_fx
        n_steps).deaths 0 k = 0
    ∧ (ccmpp basepop sx fx gx srb age_span fx_idx n_ages n_fx
        n_steps).population 0 (k + 1)
        = (1/2) * (ccmpp basepop sx fx gx srb age_span fx_idx n_ages n_fx
            n_steps).migrations 0 k := by
  unfold ccmpp
  have hzf := step_projection_zero_fertility
    (ccmppRun (PopulationProjection.init n_ages n_steps n_fx fx_idx age_span
      basepop sx fx gx srb) k) k
    (by rw [ccmppRun_n_ages]; exact hn)
    (fun i hi => by
      rw [ccmppRun_fx]
      rw [ccmppRun_n_fx] at hi
      exact hfx0 i hi k hk)
  refine ⟨?_, ?_, ?_, ?_⟩
  · intro i hi
    rw [ccmppRun_births_stable _ i k n_steps (by omega)]
    exact hzf.1 i (by rw [ccmppRun_n_fx]; exact hi)
  · rw [ccmppRun_infants_stable _ k n_steps (by omega)]
    exact hzf.2.1
  · rw [ccmppRun_deaths_stable _ 0 k n_steps (by omega)]
    exact hzf.2.2.1
  · rw [ccmppRun_population_stable _ 0 (k + 1) n_steps (by omega),
      ccmppRun_migrations_stable _ 0 k n_steps (by omega)]
    exact hzf.2.2.2

/-- C7 witness: the zero-fertility conclusions on the concrete input
(`n_ages = 3`, `fx ≡ 0`, one step) at step `0`. -/
theorem C7_zero_fertility_witness :
    (1 : ℕ) ≤ 3 ∧
    ((∀ i, i < 1 →
        (ccmpp (fun _ => 100) (fun _ _ => 1) (fun _ _ => 0) (fun _ _ => 0)
          (fun _ => 0) 1 1 3 1 1).births i 0 = 0)
    ∧ (ccmpp (fun _ => 100) (fun _ _ => 1) (fun _ _ => 0) (fun _ _ => 0)
        (fun _ => 0) 1 1 3 1 1).infants 0 = 0
    ∧ (ccmpp (fun _ => 100) (fun _ _ => 1) (fun _ _ => 0) (fun _ _ => 0)
        (fun _ => 0) 1 1 3 1 1).deaths 0 0 = 0
    ∧ (ccmpp (fun _ => 100) (fun _ _ => 1) (fun _ _ => 0) (fun _ _ => 0)
        (fun _ => 0) 1 1 3 1 1).population 0 1
        = (1/2) * (ccmpp (fun _ => 100) (fun _ _ => 1) (fun _ _ => 0)
            (fun _ _ => 0) (fun _ => 0) 1 1 3 1 1).migrations 0 0) :=
  ⟨by norm_num,
    C7_zero_fertility (fun _ => 100) (fun _ _ => 1) (fun _ _ => 0)
      (fun _ _ => 0) (fun _ => 0) 1 1 3 1 1 (by norm_num)
      (fun _ _ _ _ => rfl) 0 (by norm_num)⟩

/-- C8: frame and column dependence of a single step.  `step_projection k`
leaves the stored parameter tables unchanged and writes only population
column `k+1` and column `k` of deaths, births, infants and migrations;
and the written values depend only on population column `k` and column `k`
of `sx`, `fx`, `gx`, `srb` (two containers with the same dimensions agreeing
on those columns produce identical written values). -/
theorem C8_frame_and_column_dependence (s s2 : PopulationProjection) (k : ℕ)
    (hages : s2.n_ages = s.n_ages) (hnfx : s2.n_fx = s.n_fx)
    (hidx : s2.fx_idx = s.fx_idx) (hspan : s2.age_span = s.age_span)
    (hn : 1 ≤ s.n_ages) (hband : s.fx_idx + s.n_fx ≤ s.n_ages)
    (hpop : ∀ a, a < s.n_ages → s2.population a k = s.population a k)
    (hsx : ∀ a, a < s.n_ages + 1 → s2.sx a k = s.sx a k)
    (hfx : ∀ i, i < s.n_fx → s2.fx i k = s.fx i k)
    (hgx : ∀ a, a < s.n_ages → s2.gx a k = s.gx a k)
    (hsrb : s2.srb k = s.srb k) :
    ((step_projection s k).sx = s.sx
      ∧ (step_projection s k).fx = s.fx
      ∧ (step_projection s k).gx = s.gx
      ∧ (step_projection s k).srb = s.srb)
    ∧ (∀ a j, j ≠ k + 1 →
        (step_projection s k).population a j = s.population a j)
    ∧ (∀ a j, j ≠ k → (step_projection s k).deaths a j = s.deaths a j)
    ∧ (∀ i j, j ≠ k → (step_projection s k).births i j = s.births i j)
    ∧ (∀ j, j ≠ k → (step_projection s k).infants j = s.infants j)
    ∧ (∀ a j, j ≠ k → (step_projection s k).migrations a j = s.migrations a j)
    ∧ (∀ a, a < s.n_ages →
        (step_projection s2 k).population a (k + 1)
          = (step_projection s k).population a (k + 1))
    ∧ (∀ a, a < s.n_ages + 1 →
        (step_projection s2 k).deaths a k = (step_projection s k).deaths a k)
    ∧ (∀ i, i < s.n_fx →
        (step_projection s2 k).births i k = (step_projection s k).births i k)
    ∧ (step_projection s2 k).infants k = (step_projection s k).infants k
    ∧ (∀ a, a < s.n_ages →
        (step_projection s2 k).migrations a k
          = (step_projection s k).migrations a k) := by
  refine ⟨⟨rfl, rfl, rfl, rfl⟩,
    fun a j hj => step_projection_population_frame s k a j hj,
    fun a j hj => step_projection_deaths_frame s k a j hj,
    fun i j hj => step_projection_births_frame s k i j hj,
    fun j hj => step_projection_infants_frame s k j hj,
    fun a j hj => step_projection_migrations_frame s k a j hj,
    ?_, ?_, ?_, ?_, ?_⟩
  · intro a ha
    rw [step_projection_population_write s2 k a (by rw [hages]; exact ha),
      step_projection_population_write s k a ha, hages, hnfx, hidx, hspan, hsrb]
    exact working4_congr s.n_ages s.n_fx s.fx_idx s.age_span (s.srb k) (s.srb k)
      (fun b => s2.sx b k) (fun b => s.sx b k) (fun b => s2.fx b k)
      (fun b => s.fx b k) (fun b => s2.gx b k) (fun b => s.gx b k)
      (fun b => s2.population b k) (fun b => s.population b k)
      hsx hfx hgx hpop rfl hn hband a ha
  · intro a ha
    rw [step_projection_deaths_write s2 k a (by rw [hages]; exact ha),
      step_projection_deaths_write s k a ha, hages, hnfx, hidx, hspan, hsrb]
    by_cases ha0 : a = 0
    · rw [if_pos ha0, if_pos ha0]
      exact deaths0_congr s.n_ages s.n_fx s.fx_idx s.age_span (s.srb k)
        (s.srb k) (fun b => s2.sx b k) (fun b => s.sx b k) (fun b => s2.fx b k)
        (fun b => s.fx b k) (fun b => s2.gx b k) (fun b => s.gx b k)
        (fun b => s2.population b k) (fun b => s.population b k)
        hsx hfx hgx hpop rfl hn hband
    · rw [if_neg ha0, if_neg ha0]
      exact deathsUpper_congr s.n_ages (fun b => s2.sx b k) (fun b => s.sx b k)
        (fun b => s2.gx b k) (fun b => s.gx b k) (fun b => s2.population b k)
        (fun b => s.population b k) hsx hgx hpop hn a (by omega)
  · intro i hi
    rw [step_projection_births_write s2 k i (by rw [hnfx]; exact hi),
      step_projection_births_write s k i hi, hages, hidx, hspan]
    exact birthsCol_congr s.n_ages s.n_fx s.fx_idx s.age_span
      (fun b => s2.sx b k) (fun b => s.sx b k) (fun b => s2.fx b k)
      (fun b => s.fx b k) (fun b => s2.gx b k) (fun b => s.gx b k)
      (fun b => s2.population b k) (fun b => s.population b k)
      hsx hfx hgx hpop hn i hi (by omega)
  · rw [step_projection_infants_write s2 k, step_projection_infants_write s k,
      hages, hnfx, hidx, hspan, hsrb]
    exact infantsVal_congr s.n_ages s.n_fx s.fx_idx s.age_span (s.srb k)
      (s.srb k) (fun b => s2.sx b k) (fun b => s.sx b k) (fun b => s2.fx b k)
      (fun b => s.fx b k) (fun b => s2.gx b k) (fun b => s.gx b k)
      (fun b => s2.population b k) (fun b => s.population b k)
      hsx hfx hgx hpop rfl hn hband
  · intro a ha
    rw [step_projection_migrations_write s2 k a (by rw [hages]; exact ha),
      step_projection_migrations_write s k a ha]
    show s2.population a k * s2.gx a k = s.population a k * s.gx a k
    rw [hgx a ha, hpop a ha]

/-- C8 witness: the column-dependence conclusion for two concrete containers
agreeing on column `0` of population and of every parameter table but
differing on all later columns (`sampleState` versus `sampleState2`):
the oldest-age entry of the written population column coincides. -/
theorem C8_frame_and_column_dependence_witness :
    (1 + 1 : ℕ) ≤ 3 ∧
    (step_projection sampleState2 0).population 2 1
      = (step_projection sampleState 0).population 2 1 :=
  ⟨by norm_num,
    (C8_frame_and_column_dependence sampleState sampleState2 0 rfl rfl rfl rfl
        (by decide) (by decide) (fun a _ => rfl) (fun a _ => rfl)
        (fun i _ => rfl) (fun a _ => rfl) rfl).2.2.2.2.2.2.1 2 (by decide)⟩

/-- C9: no division by zero under the `srb` precondition.  The only
divisions performed by `make_leslie_matrix` (computing `fert_k`, ccmpp.h
line 16) and by `step_projection` (computing `infants_t`, ccmpp.h line 155)
are by `1 + srb` for the current step.  When `srb > -1`, the fallible
renderings of both functions (`safeDiv` at exactly those division sites)
never take the division-by-zero branch and return exactly the total
computations. -/
theorem C9_no_division_by_zero (sx fx : ℕ → ℚ) (n_ages n_fx : ℕ)
    (srb age_span : ℚ) (fx_idx : ℕ) (s : PopulationProjection) (k : ℕ)
    (hsrb1 : -1 < srb) (hsrb2 : -1 < s.srb k) :
    make_leslie_matrixChecked sx fx n_ages n_fx srb age_span fx_idx
        = some (make_leslie_matrix sx fx n_ages n_fx srb age_span fx_idx)
      ∧ step_projectionChecked s k = some (step_projection s k) := by
  constructor
  · unfold make_leslie_matrixChecked fert_kChecked safeDiv
    rw [if_neg (show ¬(1 + srb = 0) by intro h; linarith)]
    rfl
  · simp only [step_projectionChecked, safeDiv]
    rw [if_neg (show ¬(1 + s.srb k = 0) by intro h; linarith)]
    rfl

/-- C9 witness: the checked computations on a concrete input with `srb = 0`
(`make_leslie_matrix` at `n_ages = 3`, `n_fx = 1`, `fx_idx = 1`, and
`step_projection` on the sample container at step `0`). -/
theorem C9_no_division_by_zero_witness :
    (-1 : ℚ) < 0 ∧
    make_leslie_matrixChecked (fun _ => 1) (fun _ => 1) 3 1 0 1 1
        = some (make_leslie_matrix (fun _ => 1) (fun _ => 1) 3 1 0 1 1)
      ∧ step_projectionChecked sampleState 0
        = some (step_projection sampleState 0) :=
  ⟨by norm_num,
    C9_no_division_by_zero (fun _ => 1) (fun _ => 1) 3 1 0 1 1 sampleState 0
      (by norm_num) (by norm_num [sampleState, PopulationProjection.init])⟩

end Ccmpp
